import Mathlib

set_option synthInstance.maxSize 512

/-!
# Verification of the textmaker rendering engine

Shallow embedding of the `textmaker` repository (files `textmaker.py` and
`src/tmfonts.py`) and proofs about it.  Strings are embedded as `List Char`,
Python integers as `Nat`/`Int` (with Python's negative-index slice semantics
made explicit), Python dictionaries as insertion-ordered association lists,
and code that can raise as `Except`/`Option`-valued functions.  The external
text measurer (PIL font metrics) is a parameter `mw : List Char → Nat`
giving the pixel width of a (possibly multi-line) string, and the external
canvas is modelled only where a claim needs it (nine-slice expansion).

Loops that Python bounds only dynamically are embedded with explicit fuel;
`none` means the fuel ran out (which, for the wrap loop, is how the
genuine non-termination of the source shows up).
-/

/-! ## Python string primitives -/

/-- End index of a Python slice `l[s:e]` over a list of length `n`:
a negative `e` counts from the end, and the result is clamped to `[0, n]`. -/
def pySliceEnd (n : Nat) (e : Int) : Nat :=
  if e < 0 then ((n : Int) + e).toNat else min e.toNat n

/-- Length of the Python slice `l[s:e]` for a list of length `n`. -/
def pySliceLen (n : Nat) (s : Nat) (e : Int) : Nat :=
  pySliceEnd n e - s

/-- First index of `c` in `l`, if any (helper for Python `str.find`). -/
def pyFindAux (c : Char) : List Char → Option Nat
  | [] => none
  | x :: xs => if x = c then some 0 else (pyFindAux c xs).map (· + 1)

/-- Python `l.find(c, s)`: lowest index `≥ s` holding `c`, else `-1`. -/
def pyFind (l : List Char) (c : Char) (s : Nat) : Int :=
  match pyFindAux c (l.drop s) with
  | some j => (j + s : Nat)
  | none => -1

/-- Last index of `c` in `l`, if any (helper for Python `str.rfind`). -/
def pyRfindAux (c : Char) : List Char → Option Nat
  | [] => none
  | x :: xs =>
    match pyRfindAux c xs with
    | some j => some (j + 1)
    | none => if x = c then some 0 else none

/-- Python `l.rfind(c, 0, e)`: highest index `< e` holding `c`, else `-1`. -/
def pyRfind (l : List Char) (c : Char) (e : Nat) : Int :=
  match pyRfindAux c (l.take e) with
  | some j => (j : Nat)
  | none => -1

/-- Python `s.partition(sep)` for a one-character separator, on char lists:
split at the first occurrence; if absent, the tail is empty. -/
def pyPartitionCh (c : Char) : List Char → List Char × List Char
  | [] => ([], [])
  | x :: xs =>
    if x = c then ([], xs)
    else
      let p := pyPartitionCh c xs
      (x :: p.1, p.2)

/-- Python `s.partition(sep)` on strings (head and tail parts only). -/
def pyPartition (s : String) (c : Char) : String × String :=
  let p := pyPartitionCh c s.toList
  (String.mk p.1, String.mk p.2)

/-- Python `s.split(c)` for a one-character separator, on char lists. -/
def pySplitCh (c : Char) : List Char → List (List Char)
  | [] => [[]]
  | x :: xs =>
    if x = c then [] :: pySplitCh c xs
    else
      match pySplitCh c xs with
      | [] => [[x]]
      | l :: ls => (x :: l) :: ls

/-- Python `s.split(c)` on strings. -/
def pySplit (s : String) (c : Char) : List String :=
  (pySplitCh c s.toList).map String.mk

/-- Python `s.split()` (no separator): split on spaces, dropping empties.
The configuration data uses single spaces between syntax tokens. -/
def pySplitWs (s : String) : List String :=
  (pySplit s ' ').filter (fun t => t ≠ "")

/-- Python `" ".join(args)`. -/
def joinSpace (args : List String) : String :=
  String.intercalate " " args

/-! ## Newline structure of a string, and the reference measurer -/

/-- Split a char list at every `'\n'` (like Python `str.split("\n")`);
always returns at least one (possibly empty) line. -/
def splitNl : List Char → List (List Char)
  | [] => [[]]
  | c :: cs =>
    if c = '\n' then [] :: splitNl cs
    else
      match splitNl cs with
      | [] => [[c]]
      | l :: ls => (c :: l) :: ls

/-- Helper for `mwLen`: `(length of the first line, max length of the rest)`. -/
def mwAux : List Char → Nat × Nat
  | [] => (0, 0)
  | c :: cs =>
    let p := mwAux cs
    if c = '\n' then (0, max p.1 p.2) else (p.1 + 1, p.2)

/-- A concrete multi-line text measurer: the width of a string is the length
of its longest line (each character one pixel wide).  Used to instantiate
the abstract measurer in witnesses and counterexamples. -/
def mwLen (l : List Char) : Nat :=
  max (mwAux l).1 (mwAux l).2

/-! ## `Font.wraptext` (textmaker.py lines 48–84, tmfonts.py lines 39–75)

The binary search over break positions, the word-boundary snap, and the
outer while loop.  `mw` stands for `self.textsize(·)[0]`.  The outer loop
is embedded with fuel because the source can genuinely fail to terminate. -/

/-- Helper for `floorLog2`: halve until at most 1, with fuel. -/
def floorLog2Go : Nat → Nat → Nat
  | 0, _ => 0
  | fuel + 1, n => if n ≤ 1 then 0 else floorLog2Go fuel (n / 2) + 1

/-- `math.floor(math.log2(n))` for positive `n` (structural, so that the
embedding computes by reduction). -/
def floorLog2 (n : Nat) : Nat := floorLog2Go n n

theorem floorLog2Go_lt : ∀ fuel n, n ≤ fuel → n < 2 ^ (floorLog2Go fuel n + 1) := by
  intro fuel
  induction fuel with
  | zero =>
    intro n h
    simp only [floorLog2Go]
    omega
  | succ fuel ih =>
    intro n h
    simp only [floorLog2Go]
    by_cases h1 : n ≤ 1
    · rw [if_pos h1]
      omega
    · rw [if_neg h1]
      have hrec := ih (n / 2) (by omega)
      have h2 : 2 ^ (floorLog2Go fuel (n / 2) + 1 + 1) =
          2 * 2 ^ (floorLog2Go fuel (n / 2) + 1) := by ring
      omega

theorem floorLog2_lt (n : Nat) : n < 2 ^ (floorLog2 n + 1) :=
  floorLog2Go_lt n n le_rfl

/-- The binary-search `for` loop of `wraptext` (lines 59–73): state is
`(startpos, endpos, last_below)`, `endpos` an `Int` because the source can
drive it to `curpos - 1` with `curpos = 0`; `w k` is the measured width of
`textcut[:k]` and `n = len(textcut)`.  On `textwidth == maxwidth` the
source sets `last_below = curpos` and breaks, which the embedding renders
by returning `cur` directly. -/
def bsGo (w : Nat → Nat) (maxw n : Nat) : Nat → Nat → Int → Nat → Nat
  | 0, _, _, lb => lb
  | i + 1, s, e, lb =>
    let cur := pySliceLen n s e / 2 + s
    if w cur < maxw then bsGo w maxw n i (cur + 1) e cur
    else if maxw < w cur then bsGo w maxw n i s ((cur : Int) - 1) lb
    else cur

/-- Which kind of break a wrap iteration produced (instrumentation):
`hard` a break at the raw search position, `space` a word-boundary break
whose space was dropped, `fin` the final fitting remainder. -/
inductive Brk where
  | hard : Brk
  | space : Brk
  | fin : Brk
deriving DecidableEq, Repr

/-- One iteration of the wrap loop body in the non-fitting case
(lines 58–82): binary search, then snap to the nearest space before the
found position unless `break_on_any` or there is none.  Returns the line
emitted before the inserted `'\n'`, the remaining text, and which break
was taken. -/
def wrapIter (mw : List Char → Nat) (maxw : Nat) (breakAny : Bool)
    (textcut : List Char) : List Char × List Char × Brk :=
  let n := textcut.length
  let lb := bsGo (fun k => mw (textcut.take k)) maxw n (floorLog2 n + 1) 0 (n : Int) 0
  let bp := pyRfind textcut ' ' (lb + 1)
  if bp = -1 ∨ breakAny then (textcut.take lb, textcut.drop lb, Brk.hard)
  else (textcut.take bp.toNat, textcut.drop (bp.toNat + 1), Brk.space)

/-- The outer while loop of `wraptext` (lines 52–83), accumulating
`textout`; `none` when the fuel is exhausted (the source loops forever
exactly when no fuel suffices). -/
def wrapGo (mw : List Char → Nat) (maxw : Nat) (breakAny : Bool) :
    Nat → List Char → List Char → Option (List Char)
  | 0, _, _ => none
  | fuel + 1, textcut, textout =>
    if textcut.length = 0 then some textout
    else if mw textcut < maxw then some (textout ++ textcut)
    else
      let it := wrapIter mw maxw breakAny textcut
      wrapGo mw maxw breakAny fuel it.2.1 (textout ++ it.1 ++ ['\n'])

/-- `Font.wraptext(text, maxwidth)`: the wrapped string and
`textout.count("\n") + 1`. -/
def wraptext (mw : List Char → Nat) (maxw : Nat) (breakAny : Bool)
    (fuel : Nat) (text : List Char) : Option (List Char × Nat) :=
  (wrapGo mw maxw breakAny fuel text []).map (fun out => (out, out.count '\n' + 1))

/-- Instrumented wrap loop: the same iterations as `wrapGo`, but recording
each emitted line together with the kind of break that produced it. -/
def wrapChunksGo (mw : List Char → Nat) (maxw : Nat) (breakAny : Bool) :
    Nat → List Char → Option (List (List Char × Brk))
  | 0, _ => none
  | fuel + 1, textcut =>
    if textcut.length = 0 then some []
    else if mw textcut < maxw then some [(textcut, Brk.fin)]
    else
      let it := wrapIter mw maxw breakAny textcut
      (wrapChunksGo mw maxw breakAny fuel it.2.1).map (fun ch => (it.1, it.2.2) :: ch)

/-- The wrapped output a chunk list denotes: each non-final chunk is
followed by the inserted `'\n'`. -/
def renderChunks : List (List Char × Brk) → List Char
  | [] => []
  | (l, Brk.fin) :: ch => l ++ renderChunks ch
  | (l, _) :: ch => l ++ '\n' :: renderChunks ch

/-- The original text a chunk list came from: word-boundary breaks restore
their dropped space, hard breaks and the final chunk restore nothing. -/
def origChunks : List (List Char × Brk) → List Char
  | [] => []
  | (l, Brk.space) :: ch => l ++ ' ' :: origChunks ch
  | (l, _) :: ch => l ++ origChunks ch

/-! ## Facts about the Python string primitives -/

theorem pyRfindAux_spec {c : Char} :
    ∀ {l : List Char} {j : Nat}, pyRfindAux c l = some j → j < l.length ∧ l[j]? = some c := by
  intro l
  induction l with
  | nil => intro j h; simp [pyRfindAux] at h
  | cons x xs ih =>
    intro j h
    cases hx : pyRfindAux c xs with
    | some j2 =>
      simp only [pyRfindAux, hx] at h
      injection h with h2
      subst h2
      obtain ⟨h1, h2⟩ := ih hx
      exact ⟨by simpa using Nat.succ_lt_succ h1, by simpa using h2⟩
    | none =>
      simp only [pyRfindAux, hx] at h
      split at h
      · next heq =>
        injection h with h2
        subst h2
        simp [heq]
      · exact absurd h (by simp)

theorem pyRfind_mem {l : List Char} {c : Char} {e : Nat}
    (h : pyRfind l c e ≠ -1) :
    (pyRfind l c e).toNat < e ∧ (pyRfind l c e).toNat < l.length ∧
      l[(pyRfind l c e).toNat]? = some c := by
  cases hx : pyRfindAux c (l.take e) with
  | none => exact absurd (by simp [pyRfind, hx]) h
  | some j =>
    have hpy : pyRfind l c e = (j : Int) := by simp [pyRfind, hx]
    rw [hpy]
    obtain ⟨hlt, hget⟩ := pyRfindAux_spec hx
    rw [List.length_take] at hlt
    have hje : j < e := lt_of_lt_of_le hlt (min_le_left _ _)
    have hjl : j < l.length := lt_of_lt_of_le hlt (min_le_right _ _)
    have hgl : l[j]? = some c := by
      rw [← List.getElem?_take_of_lt hje]
      exact hget
    simpa using ⟨hje, hjl, hgl⟩

theorem take_cons_drop {l : List Char} {i : Nat} {c : Char} (h : l[i]? = some c) :
    l.take i ++ c :: l.drop (i + 1) = l := by
  have hi : i < l.length := by
    by_contra hn
    rw [List.getElem?_eq_none (by omega)] at h
    exact absurd h (by simp)
  have h1 : l[i] = c := by
    have := List.getElem?_eq_getElem hi
    rw [this] at h
    injection h
  calc l.take i ++ c :: l.drop (i + 1)
      = l.take i ++ l.drop i := by rw [← h1, List.getElem_cons_drop]
    _ = l := List.take_append_drop _ _

theorem pySliceEnd_ofNat (n e : Nat) : pySliceEnd n (e : Int) = min e n := by
  simp [pySliceEnd]

/-! ## Properties of the binary search `bsGo` -/

/-- Soundness: the final `last_below` never indexes a prefix measured
strictly wider than `maxwidth` (it is set only on `<` or `==` probes). -/
theorem bsGo_w_le (w : Nat → Nat) (maxw n : Nat) :
    ∀ i s (e : Int) lb, w lb ≤ maxw → w (bsGo w maxw n i s e lb) ≤ maxw := by
  intro i
  induction i with
  | zero => intro s e lb h; simpa [bsGo] using h
  | succ i ih =>
    intro s e lb h
    simp only [bsGo]
    split
    · exact ih _ _ _ (le_of_lt (by assumption))
    · split
      · exact ih _ _ _ h
      · omega

/-- Once `startpos ≥ 1` and `last_below ≥ 1`, every further probe is at a
position `≥ startpos`, so the final `last_below` stays `≥ 1`. -/
theorem bsGo_stable (w : Nat → Nat) (maxw n : Nat) :
    ∀ i s (e : Int) lb, 1 ≤ s → 1 ≤ lb → 1 ≤ bsGo w maxw n i s e lb := by
  intro i
  induction i with
  | zero => intro s e lb _ h; simpa [bsGo] using h
  | succ i ih =>
    intro s e lb hs hlb
    simp only [bsGo]
    split
    · exact ih _ _ _ (by omega) (by omega)
    · split
      · exact ih _ _ _ hs hlb
      · omega

/-- From the state `(startpos, endpos) = (0, 1)` the search probes position
`0` and then position `1`, so two remaining iterations force
`last_below ≥ 1` whenever the empty and one-character prefixes fit. -/
theorem bsGo_zero_one (w : Nat → Nat) (maxw n : Nat)
    (hn : 1 ≤ n) (h0 : w 0 < maxw) (h1 : w 1 < maxw) :
    ∀ i (lb : Nat), 2 ≤ i → 1 ≤ bsGo w maxw n i 0 (1 : Int) lb := by
  intro i lb hi
  obtain ⟨j, rfl⟩ : ∃ j, i = j + 2 := ⟨i - 2, by omega⟩
  have hend : pySliceEnd n (1 : Int) = 1 := by
    simp [pySliceEnd]
    omega
  have hcur0 : pySliceLen n 0 (1 : Int) / 2 + 0 = 0 := by
    simp [pySliceLen, hend]
  have hcur1 : pySliceLen n 1 (1 : Int) / 2 + 1 = 1 := by
    simp [pySliceLen, hend]
  simp only [bsGo]
  rw [hcur0, if_pos h0]
  norm_num
  rw [hcur1, if_pos h1]
  exact bsGo_stable w maxw n j _ _ _ (by omega) (by omega)

/-- Progress: with `⌊log2 e⌋ + 1` iterations available (precisely the
source's iteration budget, since `2^i ≥ e + 1`), a search window `[0, e]`
with `2 ≤ e ≤ n` ends with `last_below ≥ 1`, provided the empty and
one-character prefixes fit. -/
theorem bsGo_progress (w : Nat → Nat) (maxw n : Nat)
    (h0 : w 0 < maxw) (h1 : w 1 < maxw) :
    ∀ i (eN : Nat) lb, 2 ≤ eN → eN ≤ n → eN + 1 ≤ 2 ^ i →
      1 ≤ bsGo w maxw n i 0 (eN : Int) lb := by
  intro i
  induction i with
  | zero => intro eN lb he _ hpow; simp at hpow; omega
  | succ i ih =>
    intro eN lb he hen hpow
    have hcur : pySliceLen n 0 (eN : Int) / 2 + 0 = eN / 2 := by
      simp [pySliceLen, pySliceEnd_ofNat]
      omega
    simp only [bsGo, hcur]
    split
    · -- probe fits: last_below := eN / 2 ≥ 1, start moves to ≥ 2
      exact bsGo_stable w maxw n i _ _ _ (by omega) (by omega)
    · split
      · -- probe too wide: window shrinks to [0, eN / 2 - 1]
        next hlt hgt =>
        have hcast : ((eN / 2 : Nat) : Int) - 1 = ((eN / 2 - 1 : Nat) : Int) := by
          have : 1 ≤ eN / 2 := by omega
          omega
        rw [hcast]
        rcases Nat.lt_or_ge (eN / 2 - 1) 2 with hsmall | hbig
        · -- new window end is 0 or 1
          have h2 : eN / 2 = 1 ∨ eN / 2 - 1 = 1 := by omega
          rcases h2 with h2 | h2
          · -- probe was at position 1, but w 1 < maxw: contradiction
            rw [h2] at hgt
            omega
          · rw [h2]
            have hi2 : 2 ≤ i := by
              have h4 : 4 ≤ eN := by omega
              by_contra hci
              have : i = 0 ∨ i = 1 := by omega
              rcases this with rfl | rfl <;> norm_num at hpow <;> omega
            exact bsGo_zero_one w maxw n (by omega) h0 h1 i lb hi2
        · exact ih _ _ hbig (by omega) (by omega)
      · omega

/-! ## Properties of one wrap iteration -/

theorem wrapIter_line_le (mw : List Char → Nat) (maxw : Nat) (ba : Bool)
    (hmono : ∀ a b : List Char, a <+: b → mw a ≤ mw b) (h0 : mw [] = 0)
    (textcut : List Char) :
    mw (wrapIter mw maxw ba textcut).1 ≤ maxw := by
  have hlb : mw (textcut.take (bsGo (fun k => mw (textcut.take k)) maxw textcut.length
      (floorLog2 textcut.length + 1) 0 (textcut.length : Int) 0)) ≤ maxw := by
    have := bsGo_w_le (fun k => mw (textcut.take k)) maxw textcut.length
      (floorLog2 textcut.length + 1) 0 (textcut.length : Int) 0 (by simp [h0])
    simpa using this
  simp only [wrapIter]
  split
  · exact hlb
  · next hc =>
    push_neg at hc
    obtain ⟨hlt, _, _⟩ := pyRfind_mem hc.1
    have hple : (pyRfind textcut ' '
        (bsGo (fun k => mw (textcut.take k)) maxw textcut.length
          (floorLog2 textcut.length + 1) 0 (textcut.length : Int) 0 + 1)).toNat ≤
        bsGo (fun k => mw (textcut.take k)) maxw textcut.length
          (floorLog2 textcut.length + 1) 0 (textcut.length : Int) 0 := by omega
    exact le_trans (hmono _ _ (List.take_prefix_take_left _ hple)) hlb

theorem wrapIter_sep_ne_fin (mw : List Char → Nat) (maxw : Nat) (ba : Bool)
    (textcut : List Char) : (wrapIter mw maxw ba textcut).2.2 ≠ Brk.fin := by
  simp only [wrapIter]
  split <;> simp

theorem wrapIter_decomp (mw : List Char → Nat) (maxw : Nat) (ba : Bool)
    (textcut : List Char) :
    ((wrapIter mw maxw ba textcut).2.2 = Brk.hard ∧
       (wrapIter mw maxw ba textcut).1 ++ (wrapIter mw maxw ba textcut).2.1 = textcut) ∨
    ((wrapIter mw maxw ba textcut).2.2 = Brk.space ∧
       (wrapIter mw maxw ba textcut).1 ++ ' ' :: (wrapIter mw maxw ba textcut).2.1 = textcut) := by
  simp only [wrapIter]
  split
  · exact Or.inl ⟨rfl, List.take_append_drop _ _⟩
  · next hc =>
    push_neg at hc
    obtain ⟨_, _, hget⟩ := pyRfind_mem hc.1
    exact Or.inr ⟨rfl, take_cons_drop hget⟩

theorem wrapIter_rest_suffix (mw : List Char → Nat) (maxw : Nat) (ba : Bool)
    (textcut : List Char) : (wrapIter mw maxw ba textcut).2.1 <:+ textcut := by
  simp only [wrapIter]
  split <;> exact List.drop_suffix _ _

theorem wrapIter_rest_lt (mw : List Char → Nat) (maxw : Nat) (ba : Bool)
    (textcut : List Char) (h0 : mw [] = 0)
    (hch : ∀ c ∈ textcut, mw [c] < maxw)
    (hne : textcut ≠ []) (hnofit : ¬ mw textcut < maxw) :
    (wrapIter mw maxw ba textcut).2.1.length < textcut.length := by
  obtain ⟨c, t, rfl⟩ : ∃ c t, textcut = c :: t := by
    cases textcut with
    | nil => exact absurd rfl hne
    | cons c t => exact ⟨c, t, rfl⟩
  have hn1 : 1 ≤ (c :: t).length := by simp
  have hmaxw : 1 ≤ maxw := by have := hch c (by simp); omega
  have hw0 : (fun k => mw ((c :: t).take k)) 0 < maxw := by simpa [h0] using hmaxw
  have hw1 : (fun k => mw ((c :: t).take k)) 1 < maxw := by
    simpa using hch c (by simp)
  have hn2 : 2 ≤ (c :: t).length := by
    by_contra hcon
    have ht : t = [] := by
      cases t with
      | nil => rfl
      | cons d r => simp at hcon
    subst ht
    exact hnofit (hch c (by simp))
  have hprog : 1 ≤ bsGo (fun k => mw ((c :: t).take k)) maxw (c :: t).length
      (floorLog2 (c :: t).length + 1) 0 ((c :: t).length : Int) 0 := by
    refine bsGo_progress _ _ _ hw0 hw1 _ _ _ hn2 le_rfl ?_
    have := floorLog2_lt (c :: t).length
    omega
  simp only [wrapIter]
  split
  · rw [List.length_drop]
    omega
  · rw [List.length_drop]
    omega

/-! ## The wrap loop, its instrumented version, and reassembly -/

theorem renderChunks_cons_ne_fin {l : List Char} {s : Brk}
    {ch : List (List Char × Brk)} (h : s ≠ Brk.fin) :
    renderChunks ((l, s) :: ch) = l ++ '\n' :: renderChunks ch := by
  cases s with
  | hard => rfl
  | space => rfl
  | fin => exact absurd rfl h

theorem wrapGo_eq_chunks (mw : List Char → Nat) (maxw : Nat) (ba : Bool) :
    ∀ fuel textcut acc, wrapGo mw maxw ba fuel textcut acc =
      (wrapChunksGo mw maxw ba fuel textcut).map (fun ch => acc ++ renderChunks ch) := by
  intro fuel
  induction fuel with
  | zero => intro textcut acc; rfl
  | succ fuel ih =>
    intro textcut acc
    by_cases h1 : textcut.length = 0
    · simp [wrapGo, wrapChunksGo, h1, renderChunks]
    · by_cases h2 : mw textcut < maxw
      · simp [wrapGo, wrapChunksGo, h1, h2, renderChunks]
      · simp only [wrapGo, wrapChunksGo, if_neg h1, if_neg h2]
        rw [ih]
        cases hc : wrapChunksGo mw maxw ba fuel (wrapIter mw maxw ba textcut).2.1 with
        | none => simp [hc]
        | some ch =>
          simp only [Option.map_some']
          rw [renderChunks_cons_ne_fin (wrapIter_sep_ne_fin mw maxw ba textcut)]
          simp

theorem chunks_orig (mw : List Char → Nat) (maxw : Nat) (ba : Bool) :
    ∀ fuel textcut ch, wrapChunksGo mw maxw ba fuel textcut = some ch →
      origChunks ch = textcut := by
  intro fuel
  induction fuel with
  | zero => intro t ch h; exact absurd h (by simp [wrapChunksGo])
  | succ fuel ih =>
    intro t ch h
    by_cases h1 : t.length = 0
    · simp only [wrapChunksGo, if_pos h1] at h
      injection h with h
      subst h
      simp only [origChunks]
      exact (List.length_eq_zero.mp h1).symm
    · by_cases h2 : mw t < maxw
      · simp only [wrapChunksGo, if_neg h1, if_pos h2] at h
        injection h with h
        subst h
        simp [origChunks]
      · simp only [wrapChunksGo, if_neg h1, if_neg h2] at h
        cases hc : wrapChunksGo mw maxw ba fuel (wrapIter mw maxw ba t).2.1 with
        | none => rw [hc] at h; simp at h
        | some ch2 =>
          rw [hc] at h
          simp only [Option.map_some'] at h
          injection h with h
          subst h
          have hrest := ih _ _ hc
          rcases wrapIter_decomp mw maxw ba t with ⟨hs, hd⟩ | ⟨hs, hd⟩ <;>
            rw [hs] <;> simp only [origChunks] <;> rw [hrest] <;> exact hd

theorem chunks_fit (mw : List Char → Nat) (maxw : Nat) (ba : Bool)
    (hmono : ∀ a b : List Char, a <+: b → mw a ≤ mw b) (h0 : mw [] = 0) :
    ∀ fuel textcut ch, wrapChunksGo mw maxw ba fuel textcut = some ch →
      ∀ p ∈ ch, mw p.1 ≤ maxw := by
  intro fuel
  induction fuel with
  | zero => intro t ch h; exact absurd h (by simp [wrapChunksGo])
  | succ fuel ih =>
    intro t ch h
    by_cases h1 : t.length = 0
    · simp only [wrapChunksGo, if_pos h1] at h
      injection h with h
      subst h
      intro p hp
      simp at hp
    · by_cases h2 : mw t < maxw
      · simp only [wrapChunksGo, if_neg h1, if_pos h2] at h
        injection h with h
        subst h
        intro p hp
        simp at hp
        subst hp
        exact le_of_lt h2
      · simp only [wrapChunksGo, if_neg h1, if_neg h2] at h
        cases hc : wrapChunksGo mw maxw ba fuel (wrapIter mw maxw ba t).2.1 with
        | none => rw [hc] at h; simp at h
        | some ch2 =>
          rw [hc] at h
          simp only [Option.map_some'] at h
          injection h with h
          subst h
          intro p hp
          rcases List.mem_cons.mp hp with rfl | hp2
          · exact wrapIter_line_le mw maxw ba hmono h0 t
          · exact ih _ _ hc p hp2

/-- The final fitting chunk can only be the last one. -/
def finLast : List (List Char × Brk) → Prop
  | [] => True
  | [_] => True
  | p :: q :: r => p.2 ≠ Brk.fin ∧ finLast (q :: r)

theorem chunks_finLast (mw : List Char → Nat) (maxw : Nat) (ba : Bool) :
    ∀ fuel textcut ch, wrapChunksGo mw maxw ba fuel textcut = some ch → finLast ch := by
  intro fuel
  induction fuel with
  | zero => intro t ch h; exact absurd h (by simp [wrapChunksGo])
  | succ fuel ih =>
    intro t ch h
    by_cases h1 : t.length = 0
    · simp only [wrapChunksGo, if_pos h1] at h
      injection h with h
      subst h
      trivial
    · by_cases h2 : mw t < maxw
      · simp only [wrapChunksGo, if_neg h1, if_pos h2] at h
        injection h with h
        subst h
        trivial
      · simp only [wrapChunksGo, if_neg h1, if_neg h2] at h
        cases hc : wrapChunksGo mw maxw ba fuel (wrapIter mw maxw ba t).2.1 with
        | none => rw [hc] at h; simp at h
        | some ch2 =>
          rw [hc] at h
          simp only [Option.map_some'] at h
          injection h with h
          subst h
          cases ch2 with
          | nil => trivial
          | cons q r => exact ⟨wrapIter_sep_ne_fin mw maxw ba t, ih _ _ hc⟩

/-! ## Newline decomposition lemmas -/

theorem splitNl_ne_nil : ∀ l : List Char, splitNl l ≠ [] := by
  intro l
  induction l with
  | nil => simp [splitNl]
  | cons c cs ih =>
    simp only [splitNl]
    split
    · simp
    · cases h : splitNl cs <;> simp

theorem splitNl_append_nl (a b : List Char) :
    splitNl (a ++ '\n' :: b) = splitNl a ++ splitNl b := by
  induction a with
  | nil => simp [splitNl]
  | cons c a ih =>
    by_cases hc : c = '\n'
    · subst hc
      simp [splitNl, ih]
    · simp only [List.cons_append, splitNl, List.append_eq, if_neg hc]
      rw [ih]
      cases h : splitNl a with
      | nil => exact absurd h (splitNl_ne_nil a)
      | cons l ls => simp

theorem splitNl_head_decomp :
    ∀ (l l0 : List Char) (ls : List (List Char)), splitNl l = l0 :: ls →
      (l = l0 ∧ ls = []) ∨ ∃ b, l = l0 ++ '\n' :: b ∧ splitNl b = ls := by
  intro l
  induction l with
  | nil =>
    intro l0 ls h
    simp only [splitNl] at h
    injection h with h1 h2
    exact Or.inl ⟨h1, h2.symm⟩
  | cons c cs ih =>
    intro l0 ls h
    by_cases hc : c = '\n'
    · subst hc
      simp only [splitNl, if_pos rfl] at h
      injection h with h1 h2
      refine Or.inr ⟨cs, ?_, h2⟩
      rw [← h1]
      rfl
    · simp only [splitNl, if_neg hc] at h
      cases hcs : splitNl cs with
      | nil => exact absurd hcs (splitNl_ne_nil cs)
      | cons m ms =>
        rw [hcs] at h
        injection h with h1 h2
        rcases ih m ms hcs with ⟨rfl, rfl⟩ | ⟨b, rfl, hb⟩
        · exact Or.inl ⟨by rw [← h1], h2.symm⟩
        · refine Or.inr ⟨b, ?_, by rw [← h2]; exact hb⟩
          rw [← h1]
          rfl

/-- With a measurer that takes the max over newline-separated segments,
every line of a string measures no more than the whole string. -/
theorem mw_lines_le (mw : List Char → Nat)
    (h3 : ∀ a b : List Char, mw (a ++ '\n' :: b) = max (mw a) (mw b)) :
    ∀ N (l : List Char), l.length ≤ N → ∀ x ∈ splitNl l, mw x ≤ mw l := by
  intro N
  induction N with
  | zero =>
    intro l hl x hx
    have hnil : l = [] := List.length_eq_zero.mp (by omega)
    subst hnil
    simp only [splitNl, List.mem_singleton] at hx
    subst hx
    exact le_rfl
  | succ N ih =>
    intro l hl x hx
    cases hsp : splitNl l with
    | nil => exact absurd hsp (splitNl_ne_nil l)
    | cons l0 ls =>
      rcases splitNl_head_decomp l l0 ls hsp with ⟨rfl, rfl⟩ | ⟨b, rfl, hb⟩
      · rw [hsp] at hx
        simp only [List.mem_singleton] at hx
        subst hx
        exact le_rfl
      · rw [hsp] at hx
        rw [h3]
        rcases List.mem_cons.mp hx with rfl | hx2
        · exact le_max_left _ _
        · have hblen : b.length ≤ N := by
            have hlen := hl
            simp only [List.length_append, List.length_cons] at hlen
            omega
          have hx3 : x ∈ splitNl b := by rw [hb]; exact hx2
          exact le_trans (ih b hblen x hx3) (le_max_right _ _)

/-- Every line of the rendered wrap output fits, given that every chunk
fits and the final-fitting chunk is last. -/
theorem lines_render_le (mw : List Char → Nat) (maxw : Nat)
    (h0 : mw [] = 0)
    (h3 : ∀ a b : List Char, mw (a ++ '\n' :: b) = max (mw a) (mw b)) :
    ∀ ch, finLast ch → (∀ p ∈ ch, mw p.1 ≤ maxw) →
      ∀ x ∈ splitNl (renderChunks ch), mw x ≤ maxw := by
  intro ch
  induction ch with
  | nil =>
    intro _ _ x hx
    simp only [renderChunks, splitNl, List.mem_singleton] at hx
    subst hx
    simp [h0]
  | cons p ch ih =>
    intro hfl hle x hx
    obtain ⟨l, s⟩ := p
    have hl : mw l ≤ maxw := hle (l, s) (by simp)
    by_cases hs : s = Brk.fin
    · subst hs
      cases ch with
      | nil =>
        have hr : renderChunks [(l, Brk.fin)] = l := by simp [renderChunks]
        rw [hr] at hx
        exact le_trans (mw_lines_le mw h3 l.length l le_rfl x hx) hl
      | cons q r => exact absurd rfl hfl.1
    · rw [renderChunks_cons_ne_fin hs] at hx
      rw [splitNl_append_nl] at hx
      rcases List.mem_append.mp hx with hx | hx
      · exact le_trans (mw_lines_le mw h3 l.length l le_rfl x hx) hl
      · have hfl2 : finLast ch := by
          cases ch with
          | nil => trivial
          | cons q r => exact hfl.2
        exact ih hfl2 (fun p hp => hle p (by simp [hp])) x hx

/-! ## Termination of the wrap loop under a strict character-width bound -/

theorem wrapGo_mono (mw : List Char → Nat) (maxw : Nat) (ba : Bool) :
    ∀ fuel t acc r, wrapGo mw maxw ba fuel t acc = some r →
      ∀ fuel2, fuel ≤ fuel2 → wrapGo mw maxw ba fuel2 t acc = some r := by
  intro fuel
  induction fuel with
  | zero => intro t acc r h; exact absurd h (by simp [wrapGo])
  | succ fuel ih =>
    intro t acc r h fuel2 hf
    obtain ⟨f2, rfl⟩ : ∃ f2, fuel2 = f2 + 1 := ⟨fuel2 - 1, by omega⟩
    by_cases h1 : t.length = 0
    · simp only [wrapGo, if_pos h1] at h ⊢
      exact h
    · by_cases h2 : mw t < maxw
      · simp only [wrapGo, if_neg h1, if_pos h2] at h ⊢
        exact h
      · simp only [wrapGo, if_neg h1, if_neg h2] at h ⊢
        exact ih _ _ _ h f2 (by omega)

theorem wrap_terminates (mw : List Char → Nat) (maxw : Nat) (ba : Bool)
    (h0 : mw [] = 0) :
    ∀ N (t : List Char), t.length ≤ N → (∀ c ∈ t, mw [c] < maxw) →
      ∀ acc, ∃ r, wrapGo mw maxw ba (t.length + 1) t acc = some r := by
  intro N
  induction N with
  | zero =>
    intro t ht _ acc
    have hlen : t.length = 0 := by omega
    exact ⟨acc, by simp [wrapGo, hlen]⟩
  | succ N ih =>
    intro t ht hch acc
    by_cases hlen : t.length = 0
    · exact ⟨acc, by simp [wrapGo, hlen]⟩
    · by_cases hfit : mw t < maxw
      · refine ⟨acc ++ t, ?_⟩
        simp only [wrapGo, if_neg hlen, if_pos hfit]
      · have hne : t ≠ [] := fun hh => hlen (by simp [hh])
        have hrest := wrapIter_rest_lt mw maxw ba t h0 hch hne hfit
        have hch2 : ∀ c ∈ (wrapIter mw maxw ba t).2.1, mw [c] < maxw := by
          intro c hc
          exact hch c (((wrapIter_rest_suffix mw maxw ba t).sublist).mem hc)
        obtain ⟨r, hr⟩ := ih (wrapIter mw maxw ba t).2.1 (by omega) hch2
          (acc ++ (wrapIter mw maxw ba t).1 ++ ['\n'])
        refine ⟨r, ?_⟩
        simp only [wrapGo, if_neg hlen, if_neg hfit]
        exact wrapGo_mono mw maxw ba _ _ _ _ hr _ (by omega)

/-! ## The reference measurer `mwLen` satisfies the measurer axioms -/

theorem mwAux_append_le (a t : List Char) :
    (mwAux a).1 ≤ (mwAux (a ++ t)).1 ∧ (mwAux a).2 ≤ (mwAux (a ++ t)).2 := by
  induction a with
  | nil => simp [mwAux]
  | cons c a ih =>
    by_cases hc : c = '\n'
    · subst hc
      simp only [List.cons_append, mwAux, if_pos rfl]
      exact ⟨le_rfl, max_le_max ih.1 ih.2⟩
    · simp only [List.cons_append, mwAux, List.append_eq, if_neg hc]
      exact ⟨by omega, ih.2⟩

theorem mwLen_mono (a b : List Char) (h : a <+: b) : mwLen a ≤ mwLen b := by
  obtain ⟨t, rfl⟩ := h
  have hab := mwAux_append_le a t
  simp only [mwLen]
  exact max_le_max hab.1 hab.2

theorem mwAux_append_nl (a b : List Char) :
    mwAux (a ++ '\n' :: b) = ((mwAux a).1, max (mwAux a).2 (mwLen b)) := by
  induction a with
  | nil => simp [mwAux, mwLen]
  | cons c a ih =>
    by_cases hc : c = '\n'
    · subst hc
      simp only [List.cons_append]
      rw [show ∀ x, mwAux ('\n' :: x) = (0, max (mwAux x).1 (mwAux x).2) from
        fun x => by simp [mwAux], ih,
        show ∀ x, mwAux ('\n' :: x) = (0, max (mwAux x).1 (mwAux x).2) from
        fun x => by simp [mwAux]]
      simp only [mwLen, Prod.mk.injEq, true_and]
      omega
    · simp only [List.cons_append, mwAux, List.append_eq, if_neg hc, ih]

theorem mwLen_append_nl (a b : List Char) :
    mwLen (a ++ '\n' :: b) = max (mwLen a) (mwLen b) := by
  simp only [mwLen, mwAux_append_nl]
  omega

/-! ## Claim C1 and C2 theorems -/

/-- C1 (amended): for every measurer that is prefix-monotone, gives the
empty string width 0, and measures multi-line text as the max over its
lines, whenever `wraptext` returns, every line of its output measures at
most `maxwidth` (not strictly less, as the original claim stated),
reassembling the emitted chunks (restoring the dropped space at
word-boundary breaks and nothing at hard breaks) reproduces the input
exactly, and the returned line count is break count + 1; moreover
`wraptext` terminates whenever `maxwidth` strictly exceeds the width of
every single character of the text (not merely equals the widest). -/
theorem wraptext_wrap_correct
    (mw : List Char → Nat) (maxw : Nat) (ba : Bool) (text : List Char)
    (hmono : ∀ a b : List Char, a <+: b → mw a ≤ mw b)
    (h0 : mw [] = 0)
    (h3 : ∀ a b : List Char, mw (a ++ '\n' :: b) = max (mw a) (mw b)) :
    (∀ fuel out n, wraptext mw maxw ba fuel text = some (out, n) →
        (∀ x ∈ splitNl out, mw x ≤ maxw) ∧
        (∃ ch, wrapChunksGo mw maxw ba fuel text = some ch ∧
            out = renderChunks ch ∧ origChunks ch = text) ∧
        n = out.count '\n' + 1) ∧
    ((∀ c ∈ text, mw [c] < maxw) →
        (wraptext mw maxw ba (text.length + 1) text).isSome = true) := by
  constructor
  · intro fuel out n h
    unfold wraptext at h
    cases hg : wrapGo mw maxw ba fuel text [] with
    | none => rw [hg] at h; exact absurd h (by simp)
    | some o =>
      rw [hg] at h
      simp only [Option.map_some'] at h
      injection h with h
      rw [Prod.mk.injEq] at h
      obtain ⟨rfl, rfl⟩ := h
      rw [wrapGo_eq_chunks] at hg
      cases hc : wrapChunksGo mw maxw ba fuel text with
      | none => rw [hc] at hg; exact absurd hg (by simp)
      | some ch =>
        rw [hc] at hg
        simp only [Option.map_some'] at hg
        injection hg with hg
        rw [List.nil_append] at hg
        subst hg
        refine ⟨?_, ⟨ch, rfl, rfl, chunks_orig mw maxw ba fuel text ch hc⟩, rfl⟩
        exact lines_render_le mw maxw h0 h3 ch
          (chunks_finLast mw maxw ba fuel text ch hc)
          (chunks_fit mw maxw ba hmono h0 fuel text ch hc)
  · intro hch
    obtain ⟨r, hr⟩ := wrap_terminates mw maxw ba h0 text.length text le_rfl hch []
    rw [wraptext, hr]
    rfl

/-- C1 witness: the amended theorem applied to the concrete measurer
`mwLen`, `maxwidth = 3`, text `"ab cd"`. -/
theorem wraptext_wrap_correct_witness :
    (wraptext mwLen 3 false (("ab cd".toList).length + 1) ("ab cd".toList)).isSome = true :=
  (wraptext_wrap_correct mwLen 3 false ("ab cd".toList) mwLen_mono (by rfl)
    mwLen_append_nl).2 (by decide)

/-- C1 counterexample: with the measurer `mwLen` (each character one pixel,
multi-line max) and `maxwidth = 4 ≥` the widest single character, wrapping
`"abcd efg"` emits the line `"abcd"` whose measured width is exactly 4 —
not strictly less than `maxwidth` — although every single character fits
strictly (so this is not the degenerate case) and the line does not exceed
`maxwidth` (so the claim's single-unbreakable-token exception does not
apply). -/
theorem wraptext_strict_width_cex :
    wraptext mwLen 4 false 20 ("abcd efg".toList) = some ("abcd\nefg".toList, 2) ∧
    "abcd".toList ∈ splitNl ("abcd\nefg".toList) ∧
    ¬ mwLen ("abcd".toList) < 4 ∧
    ¬ 4 < mwLen ("abcd".toList) ∧
    (("abcd efg".toList).all fun c => decide (mwLen [c] < 4)) = true := by
  decide

/-- C2: the claim says `wraptext` always terminates, returning unbreakable
text as one oversized line when the width bound cannot fit one character.
In fact the source loops forever in that case: with a one-character,
non-space text whose character measures no less than `maxwidth`, every
iteration emits an empty line and leaves the remaining text unchanged, so
the loop never exits (here: no fuel ever suffices). -/
theorem wraptext_degenerate_diverges :
    (∀ fuel acc, wrapGo mwLen 1 false fuel ['a'] acc = none) ∧
    (∀ fuel, wraptext mwLen 1 false fuel ['a'] = none) ∧
    ¬ mwLen ['a'] < 1 := by
  have hit : wrapIter mwLen 1 false ['a'] = ([], ['a'], Brk.hard) := by decide
  have key : ∀ fuel acc, wrapGo mwLen 1 false fuel ['a'] acc = none := by
    intro fuel
    induction fuel with
    | zero => intro acc; rfl
    | succ fuel ih =>
      intro acc
      simp only [wrapGo, hit]
      rw [if_neg (by decide), if_neg (by decide)]
      exact ih _
  refine ⟨key, fun fuel => ?_, by decide⟩
  rw [wraptext, key fuel []]
  rfl

/-! ## `merge_dicts` (textmaker.py lines 164–180)

Python nested key/value trees: a value is either a dictionary (an
insertion-ordered association list with string keys) or a non-dictionary
leaf (scalar or list — only the `isinstance(·, dict)` distinction matters
to `merge_dicts`, so leaves carry an opaque tag).  `deepcopy` is the
identity in a pure embedding. -/

inductive PyVal where
  | prim : Nat → PyVal
  | dict : List (String × PyVal) → PyVal

/-- Python `key in d` / `d[key]` on a dict (first occurrence). -/
def lookupD : List (String × PyVal) → String → Option PyVal
  | [], _ => none
  | (k, v) :: r, key => if k = key then some v else lookupD r key

theorem sizeOf_lookupD : ∀ (b : List (String × PyVal)) (k : String) (v : PyVal),
    lookupD b k = some v → sizeOf v < sizeOf b := by
  intro b
  induction b with
  | nil => intro k v h; simp [lookupD] at h
  | cons p r ih =>
    intro k v h
    obtain ⟨k2, v2⟩ := p
    simp only [lookupD] at h
    split at h
    · injection h with h
      subst h
      simp only [List.cons.sizeOf_spec, Prod.mk.sizeOf_spec]
      omega
    · have := ih k v h
      simp only [List.cons.sizeOf_spec]
      omega

mutual

/-- The first loop of `merge_dicts` (lines 167–174): for each key of `a`,
merge recursively when both values are dicts, else take `b`'s value when
the key is shared, else keep `a`'s value. -/
def mergeEntries (b : List (String × PyVal)) :
    List (String × PyVal) → List (String × PyVal)
  | [] => []
  | (k, va) :: rest =>
    (match h : lookupD b k with
     | some vb => (k, mergeVal va vb)
     | none => (k, va)) :: mergeEntries b rest
termination_by l => sizeOf b + sizeOf l
decreasing_by
  · have := sizeOf_lookupD b k vb h
    simp only [List.cons.sizeOf_spec, Prod.mk.sizeOf_spec]
    omega
  · simp only [List.cons.sizeOf_spec, Prod.mk.sizeOf_spec]
    omega

/-- The shared-key case of lines 169–172. -/
def mergeVal : PyVal → PyVal → PyVal
  | PyVal.dict da, PyVal.dict db => PyVal.dict (merge_dicts da db)
  | _, vb => vb
termination_by va vb => sizeOf va + sizeOf vb
decreasing_by
  simp only [PyVal.dict.sizeOf_spec]
  omega

/-- `merge_dicts(a, b)` (lines 164–180): `a`'s keys in order (with merged
or overridden values), then `b`'s keys not present in `a` (lines 176–178). -/
def merge_dicts (a b : List (String × PyVal)) : List (String × PyVal) :=
  mergeEntries b a ++ b.filter (fun p => (lookupD a p.1).isNone)
termination_by sizeOf a + sizeOf b + 1
decreasing_by
  omega

end

/-- Python `isinstance(v, dict)`. -/
def PyVal.isDict : PyVal → Bool
  | PyVal.dict _ => true
  | _ => false

theorem lookupD_append (x y : List (String × PyVal)) (k : String) :
    lookupD (x ++ y) k =
      match lookupD x k with
      | some v => some v
      | none => lookupD y k := by
  induction x with
  | nil => simp [lookupD]
  | cons p r ih =>
    obtain ⟨k2, v2⟩ := p
    by_cases hc : k2 = k
    · simp [lookupD, hc]
    · simp [lookupD, hc, ih]

theorem lookupD_mergeEntries (b : List (String × PyVal)) :
    ∀ (a : List (String × PyVal)) (k : String),
      lookupD (mergeEntries b a) k =
        (lookupD a k).map (fun va =>
          match lookupD b k with
          | some vb => mergeVal va vb
          | none => va) := by
  intro a
  induction a with
  | nil => intro k; simp [mergeEntries, lookupD]
  | cons p rest ih =>
    intro k
    obtain ⟨k2, va⟩ := p
    simp only [mergeEntries]
    split
    · next vb hb =>
      by_cases hc : k2 = k
      · subst hc
        simp [lookupD, hb]
      · simp [lookupD, hc, ih]
    · next hb =>
      by_cases hc : k2 = k
      · subst hc
        simp [lookupD, hb]
      · simp [lookupD, hc, ih]

theorem mergeVal_not_dicts (va vb : PyVal)
    (h : PyVal.isDict va = false ∨ PyVal.isDict vb = false) :
    mergeVal va vb = vb := by
  cases va <;> cases vb <;> simp [PyVal.isDict] at h ⊢ <;> simp [mergeVal]

theorem lookupD_filter_of_none (a b : List (String × PyVal)) (k : String)
    (h : lookupD a k = none) :
    lookupD (b.filter (fun p => (lookupD a p.1).isNone)) k = lookupD b k := by
  induction b with
  | nil => simp
  | cons p r ih =>
    obtain ⟨k2, v2⟩ := p
    by_cases hc : k2 = k
    · subst hc
      simp [List.filter_cons, lookupD, h, ih]
    · simp only [List.filter_cons]
      split
      · simp [lookupD, hc, ih]
      · simp [lookupD, hc, ih]

theorem lookupD_filter_of_some (a b : List (String × PyVal)) (k : String) (va : PyVal)
    (h : lookupD a k = some va) :
    lookupD (b.filter (fun p => (lookupD a p.1).isNone)) k = none := by
  induction b with
  | nil => simp [lookupD]
  | cons p r ih =>
    obtain ⟨k2, v2⟩ := p
    by_cases hc : k2 = k
    · subst hc
      simp [List.filter_cons, lookupD, h, ih]
    · simp only [List.filter_cons]
      split
      · simp [lookupD, hc, ih]
      · exact ih

theorem mergeEntries_of_disjoint (b : List (String × PyVal)) :
    ∀ a, (∀ p ∈ a, lookupD b p.1 = none) → mergeEntries b a = a := by
  intro a
  induction a with
  | nil => intro _; simp [mergeEntries]
  | cons p rest ih =>
    intro h
    obtain ⟨k, va⟩ := p
    simp only [mergeEntries]
    split
    · next vb hb =>
      have := h (k, va) (by simp)
      simp at this
      rw [this] at hb
      exact absurd hb (by simp)
    · rw [ih (fun p hp => h p (by simp [hp]))]

/-- C5: `merge_dicts` merges recursively on keys where both values are
nested dicts, takes `b`'s value on every other shared key, passes through
keys present in only one input, and on disjoint key sets returns exactly
`a`'s entries followed by `b`'s, unchanged. -/
theorem merge_dicts_spec (a b : List (String × PyVal)) :
    (∀ k da db, lookupD a k = some (PyVal.dict da) → lookupD b k = some (PyVal.dict db) →
        lookupD (merge_dicts a b) k = some (PyVal.dict (merge_dicts da db))) ∧
    (∀ k va vb, lookupD a k = some va → lookupD b k = some vb →
        (PyVal.isDict va = false ∨ PyVal.isDict vb = false) →
        lookupD (merge_dicts a b) k = some vb) ∧
    (∀ k va, lookupD a k = some va → lookupD b k = none →
        lookupD (merge_dicts a b) k = some va) ∧
    (∀ k vb, lookupD a k = none → lookupD b k = some vb →
        lookupD (merge_dicts a b) k = some vb) ∧
    ((∀ p ∈ a, lookupD b p.1 = none) → (∀ p ∈ b, lookupD a p.1 = none) →
        merge_dicts a b = a ++ b) := by
  refine ⟨?_, ?_, ?_, ?_, ?_⟩
  · intro k da db ha hb
    rw [merge_dicts, lookupD_append, lookupD_mergeEntries, ha]
    simp [hb, mergeVal]
  · intro k va vb ha hb hnd
    rw [merge_dicts, lookupD_append, lookupD_mergeEntries, ha]
    simp [hb, mergeVal_not_dicts va vb hnd]
  · intro k va ha hb
    rw [merge_dicts, lookupD_append, lookupD_mergeEntries, ha]
    simp [hb]
  · intro k vb ha hb
    rw [merge_dicts, lookupD_append, lookupD_mergeEntries, ha]
    simp [lookupD_filter_of_none a b k ha, hb]
  · intro h1 h2
    rw [merge_dicts, mergeEntries_of_disjoint b a h1]
    congr 1
    exact List.filter_eq_self.mpr (fun p hp => by simp [h2 p hp])

/-- C5 witness: the merge theorem applied to a concrete two-level tree:
the shared scalar key takes `b`'s value, the shared dict key merges
recursively, and a `b`-only key passes through. -/
theorem merge_dicts_spec_witness :
    lookupD (merge_dicts
        [("x", PyVal.prim 1), ("t", PyVal.dict [("y", PyVal.prim 2)])]
        [("x", PyVal.prim 9), ("t", PyVal.dict [("z", PyVal.prim 7)]), ("q", PyVal.prim 5)])
      "x" = some (PyVal.prim 9) ∧
    lookupD (merge_dicts
        [("x", PyVal.prim 1), ("t", PyVal.dict [("y", PyVal.prim 2)])]
        [("x", PyVal.prim 9), ("t", PyVal.dict [("z", PyVal.prim 7)]), ("q", PyVal.prim 5)])
      "t" = some (PyVal.dict (merge_dicts [("y", PyVal.prim 2)] [("z", PyVal.prim 7)])) ∧
    lookupD (merge_dicts
        [("x", PyVal.prim 1), ("t", PyVal.dict [("y", PyVal.prim 2)])]
        [("x", PyVal.prim 9), ("t", PyVal.dict [("z", PyVal.prim 7)]), ("q", PyVal.prim 5)])
      "q" = some (PyVal.prim 5) :=
  ⟨(merge_dicts_spec _ _).2.1 "x" (PyVal.prim 1) (PyVal.prim 9) rfl rfl (Or.inl rfl),
   (merge_dicts_spec _ _).1 "t" [("y", PyVal.prim 2)] [("z", PyVal.prim 7)] rfl rfl,
   (merge_dicts_spec _ _).2.2.2.1 "q" (PyVal.prim 5) rfl rfl⟩

/-! ## `eval_predicate` (textmaker.py lines 247–268)

The predicate facts dictionary: `"flag"` and `"exists"` hold string lists,
`"lines"` maps textbox names to integer line counts and may be absent
(it is added only after layout).  An `Option` field models Python's
`ptype not in predicate_data` key test.  The `lines` comparison
`predicate_data[ptype][tname] > val` compares an `int` against the `str`
produced by `partition(">")`; in Python 3 that raises `TypeError`, which
the embedding models as `Except.error ()`. -/

structure PredData where
  flagv : Option (List String)
  existsv : Option (List String)
  linesv : Option (List (String × Nat))

/-- Python `key in d` / `d[key]` on the per-textbox line-count dict. -/
def lookupN : List (String × Nat) → String → Option Nat
  | [], _ => none
  | (k, v) :: r, key => if k = key then some v else lookupN r key

/-- One atom of the inner `for ppart in ppart_or.split("&")` loop
(lines 253–265), transforming the running `presult`.  Unrecognized atom
kinds fall through the `match` and leave `presult` unchanged.  A `lines`
atom whose textbox entry exists reaches `predicate_data[ptype][tname] > val`,
an `int`-vs-`str` comparison that raises `TypeError` in Python 3. -/
def atomStep (pd : PredData) (ppart : String) (presult : Bool) : Except Unit Bool :=
  let pp := pyPartition ppart ':'
  if pp.1 = "exists" then
    match pd.existsv with
    | none => Except.ok false
    | some l => if pp.2 ∈ l then Except.ok presult else Except.ok false
  else if pp.1 = "flag" then
    match pd.flagv with
    | none => Except.ok false
    | some l => if pp.2 ∈ l then Except.ok presult else Except.ok false
  else if pp.1 = "lines" then
    match pd.linesv with
    | none => Except.ok false
    | some entries =>
      let pv := pyPartition pp.2 '>'
      match lookupN entries pv.1 with
      | none => Except.ok false
      | some _ => Except.error ()
  else Except.ok presult

/-- The inner conjunction loop over the atoms of one or-group: atoms are
evaluated sequentially (no short-circuit on a `False` result, exactly as
the source keeps iterating), errors propagate. -/
def evalGroupGo (pd : PredData) : List String → Bool → Except Unit Bool
  | [], presult => Except.ok presult
  | atom :: rest, presult =>
    match atomStep pd atom presult with
    | Except.ok p2 => evalGroupGo pd rest p2
    | Except.error e => Except.error e

/-- The outer disjunction loop: return `True` at the first or-group whose
conjunction held (later groups are then not evaluated at all). -/
def evalOrGo (pd : PredData) : List String → Except Unit Bool
  | [] => Except.ok false
  | g :: gs =>
    match evalGroupGo pd (pySplit g '&') true with
    | Except.ok true => Except.ok true
    | Except.ok false => evalOrGo pd gs
    | Except.error e => Except.error e

/-- `eval_predicate(predicate, predicate_data)` (lines 247–268). -/
def eval_predicate (pred : String) (pd : PredData) : Except Unit Bool :=
  if pred = "default" then Except.ok true
  else evalOrGo pd (pySplit pred '|')

/-- The `kind` of an atom: the part before the first `:`. -/
def atomKind (ppart : String) : String := (pyPartition ppart ':').1

/-- An atom whose kind is none of `exists`, `flag`, `lines`. -/
def unrecognizedAtom (ppart : String) : Bool :=
  if atomKind ppart = "exists" ∨ atomKind ppart = "flag" ∨ atomKind ppart = "lines"
  then false else true

/-- Whether an atom lets the running conjunction value pass through as
`true` (the code-level notion of the atom being satisfied). -/
def atomPass (pd : PredData) (a : String) : Bool :=
  match atomStep pd a true with
  | Except.ok b => b
  | Except.error _ => false

/-- Decimal rendering of a natural number (kernel-computable `str(n)`). -/
def natDecAux : Nat → Nat → List Char
  | 0, _ => []
  | fuel + 1, n =>
    if n < 10 then [Char.ofNat (48 + n)]
    else natDecAux fuel (n / 10) ++ [Char.ofNat (48 + n % 10)]

/-- Decimal rendering of a natural number as a string. -/
def natDec (n : Nat) : String := String.mk (natDecAux (n + 1) n)

/-- Lexicographic (code-point) string comparison, Python `a < b`. -/
def pyStrLt : List Char → List Char → Bool
  | [], [] => false
  | [], _ :: _ => true
  | _ :: _, [] => false
  | a :: as, b :: bs =>
    if a.toNat < b.toNat then true
    else if a.toNat = b.toNat then pyStrLt as bs
    else false

/-- Stated from the claim's wording (C4 and C7), for comparison with the
source evaluator: an atom holds iff its fact is present, where a `lines`
atom `name>threshold` holds iff the entry exists and its count, written
in decimal, lexicographically exceeds the threshold string; the whole
expression is a disjunction over `|` of conjunctions over `&`. -/
def claimAtomHolds (pd : PredData) (ppart : String) : Bool :=
  let pp := pyPartition ppart ':'
  if pp.1 = "exists" then
    match pd.existsv with
    | none => false
    | some l => decide (pp.2 ∈ l)
  else if pp.1 = "flag" then
    match pd.flagv with
    | none => false
    | some l => decide (pp.2 ∈ l)
  else if pp.1 = "lines" then
    match pd.linesv with
    | none => false
    | some entries =>
      let pv := pyPartition pp.2 '>'
      match lookupN entries pv.1 with
      | none => false
      | some cnt => pyStrLt pv.2.toList (natDec cnt).toList
  else true

/-- The claim-side disjunction-of-conjunctions reading of an expression. -/
def dnfHolds (pred : String) (pd : PredData) : Bool :=
  decide (pred = "default") ||
    (pySplit pred '|').any (fun g => (pySplit g '&').all (claimAtomHolds pd))

/-! ## Predicate evaluator lemmas -/

theorem pyPartitionCh_not_mem (c : Char) : ∀ (a b : List Char), c ∉ a →
    pyPartitionCh c (a ++ c :: b) = (a, b) := by
  intro a
  induction a with
  | nil => intro b _; simp [pyPartitionCh]
  | cons x xs ih =>
    intro b h
    have hx : ¬ x = c := fun he => h (by simp [he])
    simp [pyPartitionCh, hx, ih b (fun hm => h (by simp [hm]))]

/-- Whether evaluating an atom raises (only a `lines` atom with a present
entry does). -/
def atomErrs (pd : PredData) (a : String) : Bool :=
  match atomStep pd a true with
  | Except.error _ => true
  | Except.ok _ => false

theorem atomStep_shape (pd : PredData) (a : String) :
    (∀ p, atomStep pd a p = Except.ok p) ∨
    (∀ p, atomStep pd a p = Except.ok false) ∨
    (∀ p, atomStep pd a p = Except.error ()) := by
  by_cases h1 : (pyPartition a ':').1 = "exists"
  · cases he : pd.existsv with
    | none => exact Or.inr (Or.inl (fun p => by simp [atomStep, h1, he]))
    | some l =>
      by_cases hm : (pyPartition a ':').2 ∈ l
      · exact Or.inl (fun p => by simp [atomStep, h1, he, hm])
      · exact Or.inr (Or.inl (fun p => by simp [atomStep, h1, he, hm]))
  · by_cases h2 : (pyPartition a ':').1 = "flag"
    · cases hf : pd.flagv with
      | none => exact Or.inr (Or.inl (fun p => by simp [atomStep, h1, h2, hf]))
      | some l =>
        by_cases hm : (pyPartition a ':').2 ∈ l
        · exact Or.inl (fun p => by simp [atomStep, h1, h2, hf, hm])
        · exact Or.inr (Or.inl (fun p => by simp [atomStep, h1, h2, hf, hm]))
    · by_cases h3 : (pyPartition a ':').1 = "lines"
      · cases hl : pd.linesv with
        | none => exact Or.inr (Or.inl (fun p => by simp [atomStep, h1, h2, h3, hl]))
        | some entries =>
          cases hn : lookupN entries (pyPartition (pyPartition a ':').2 '>').1 with
          | none => exact Or.inr (Or.inl (fun p => by simp [atomStep, h1, h2, h3, hl, hn]))
          | some cnt => exact Or.inr (Or.inr (fun p => by simp [atomStep, h1, h2, h3, hl, hn]))
      · exact Or.inl (fun p => by simp [atomStep, h1, h2, h3])

theorem atomStep_eq_pass (pd : PredData) (a : String) (h : atomErrs pd a = false) :
    ∀ p, atomStep pd a p = Except.ok (p && atomPass pd a) := by
  rcases atomStep_shape pd a with hs | hs | hs
  · intro p
    simp [atomPass, hs]
  · intro p
    simp [atomPass, hs]
  · have ht : atomErrs pd a = true := by simp [atomErrs, hs]
    rw [ht] at h
    exact absurd h (by simp)

theorem evalGroupGo_eq (pd : PredData) :
    ∀ atoms presult, (∀ a ∈ atoms, atomErrs pd a = false) →
      evalGroupGo pd atoms presult = Except.ok (presult && atoms.all (atomPass pd)) := by
  intro atoms
  induction atoms with
  | nil => intro p _; simp [evalGroupGo]
  | cons a rest ih =>
    intro p h
    have ha := atomStep_eq_pass pd a (h a (by simp))
    simp only [evalGroupGo, ha p]
    rw [ih _ (fun x hx => h x (by simp [hx]))]
    simp [Bool.and_assoc]

theorem evalOrGo_eq (pd : PredData) :
    ∀ gs, (∀ g ∈ gs, ∀ a ∈ pySplit g '&', atomErrs pd a = false) →
      evalOrGo pd gs = Except.ok (gs.any (fun g => (pySplit g '&').all (atomPass pd))) := by
  intro gs
  induction gs with
  | nil => intro _; simp [evalOrGo]
  | cons g gs ih =>
    intro h
    have hg := evalGroupGo_eq pd (pySplit g '&') true (h g (by simp))
    simp only [evalOrGo, hg, Bool.true_and]
    cases hall : (pySplit g '&').all (atomPass pd) with
    | true => simp [hall]
    | false =>
      rw [ih (fun g2 hg2 => h g2 (by simp [hg2]))]
      simp [hall]

theorem evalOrGo_ne_false (pd : PredData) : ∀ gs g, g ∈ gs →
    evalGroupGo pd (pySplit g '&') true = Except.ok true →
    evalOrGo pd gs ≠ Except.ok false := by
  intro gs
  induction gs with
  | nil => intro g hg; simp at hg
  | cons g2 gs ih =>
    intro g hg hgt
    simp only [evalOrGo]
    cases hc : evalGroupGo pd (pySplit g2 '&') true with
    | error e => simp
    | ok b =>
      cases b with
      | true => simp
      | false =>
        rcases List.mem_cons.mp hg with rfl | hg2
        · rw [hc] at hgt
          exact absurd hgt (by simp)
        · simpa using ih g hg2 hgt

/-! ## Claim C4, C7 and C10 theorems -/

theorem pyPartition_lines (tname thr : String) :
    pyPartition ("lines:" ++ tname ++ ">" ++ thr) ':' =
      ("lines", String.mk (tname.data ++ '>' :: thr.data)) := by
  unfold pyPartition
  have hdata : ("lines:" ++ tname ++ ">" ++ thr).toList =
      'l' :: 'i' :: 'n' :: 'e' :: 's' :: ':' :: (tname.data ++ '>' :: thr.data) := by
    show ("lines:" ++ tname ++ ">" ++ thr).data = _
    simp [String.data_append]
  rw [hdata]
  simp [pyPartitionCh]

theorem pyPartition_gt (tname thr : String) (h : '>' ∉ tname.data) :
    pyPartition (String.mk (tname.data ++ '>' :: thr.data)) '>' = (tname, thr) := by
  unfold pyPartition
  show (Prod.mk _ _) = _
  rw [show (String.mk (tname.data ++ '>' :: thr.data)).toList =
    tname.data ++ '>' :: thr.data from rfl]
  rw [pyPartitionCh_not_mem '>' tname.data thr.data h]

/-- C4 (corrected): a `lines` atom `lines:<tname>><thr>` evaluates to
`False` (without erroring) when the `lines` fact category is absent or the
textbox entry is missing; but when the entry exists, the source's
comparison `predicate_data["lines"][tname] > val` compares the `int` line
count against the `str` threshold, which raises `TypeError` in Python 3 —
it does not return the lexicographic (or any) comparison the claim
describes. -/
theorem eval_lines_atom_spec (pd : PredData) (tname thr : String) (presult : Bool)
    (hgt : '>' ∉ tname.data) :
    (pd.linesv = none →
      atomStep pd ("lines:" ++ tname ++ ">" ++ thr) presult = Except.ok false) ∧
    (∀ entries, pd.linesv = some entries → lookupN entries tname = none →
      atomStep pd ("lines:" ++ tname ++ ">" ++ thr) presult = Except.ok false) ∧
    (∀ entries cnt, pd.linesv = some entries → lookupN entries tname = some cnt →
      atomStep pd ("lines:" ++ tname ++ ">" ++ thr) presult = Except.error ()) := by
  have hp := pyPartition_lines tname thr
  have hq := pyPartition_gt tname thr hgt
  refine ⟨?_, ?_, ?_⟩
  · intro hl
    simp [atomStep, hp, hq, hl]
  · intro entries hl hn
    simp [atomStep, hp, hq, hl, hn]
  · intro entries cnt hl hn
    simp [atomStep, hp, hq, hl, hn]

/-- C4 witness: the amended behavior at a concrete record: entry `t`
present with count 5 raises; category or entry absent gives `False`. -/
theorem eval_lines_atom_spec_witness :
    atomStep ⟨some [], some [], some [("t", 5)]⟩ ("lines:" ++ "t" ++ ">" ++ "3") true =
      Except.error () ∧
    atomStep ⟨some [], some [], none⟩ ("lines:" ++ "t" ++ ">" ++ "3") true =
      Except.ok false :=
  ⟨(eval_lines_atom_spec ⟨some [], some [], some [("t", 5)]⟩ "t" "3" true (by decide)).2.2
      [("t", 5)] 5 rfl rfl,
   (eval_lines_atom_spec ⟨some [], some [], none⟩ "t" "3" true (by decide)).1 rfl⟩

/-- C4 counterexample: the claim as stated — the atom returns the result
of the comparison — is false on the code: for facts with `lines = {t: 5}`
the atom `lines:t>3` makes `eval_predicate` raise (modelled `error`),
while the claim's own reading (count `5`, threshold `"3"`, lexicographic)
says it should evaluate true. -/
theorem eval_lines_atom_cex :
    eval_predicate "lines:t>3" ⟨some [], some [], some [("t", 5)]⟩ = Except.error () ∧
    dnfHolds "lines:t>3" ⟨some [], some [], some [("t", 5)]⟩ = true :=
  ⟨rfl, rfl⟩

/-- C7 (corrected): when no atom of the expression raises (a `lines` atom
with a present entry is the only raising case, see C4), `eval_predicate`
computes exactly the disjunction over `|`-groups of the conjunction over
`&`-atoms, with the literal expression `default` always true, and atoms
whose fact category is missing evaluating false rather than erroring.
Without that proviso the equivalence fails (see the counterexample). -/
theorem eval_predicate_dnf (pred : String) (pd : PredData) :
    ((∀ g ∈ pySplit pred '|', ∀ a ∈ pySplit g '&', atomErrs pd a = false) →
      eval_predicate pred pd = Except.ok (decide (pred = "default") ||
        (pySplit pred '|').any (fun g => (pySplit g '&').all (atomPass pd)))) ∧
    eval_predicate "default" pd = Except.ok true ∧
    (∀ a, atomKind a = "exists" → pd.existsv = none →
      atomStep pd a true = Except.ok false) ∧
    (∀ a, atomKind a = "flag" → pd.flagv = none →
      atomStep pd a true = Except.ok false) ∧
    (∀ a, atomKind a = "lines" → pd.linesv = none →
      atomStep pd a true = Except.ok false) := by
  refine ⟨?_, by simp [eval_predicate], ?_, ?_, ?_⟩
  · intro hok
    by_cases hd : pred = "default"
    · simp [eval_predicate, hd]
    · rw [eval_predicate, if_neg hd, evalOrGo_eq pd _ hok]
      simp [hd]
  · intro a hk he
    unfold atomKind at hk
    simp [atomStep, hk, he]
  · intro a hk hf
    unfold atomKind at hk
    by_cases h1 : (pyPartition a ':').1 = "exists"
    · rw [hk] at h1
      exact absurd h1 (by decide)
    · simp [atomStep, h1, hk, hf]
  · intro a hk hl
    unfold atomKind at hk
    by_cases h1 : (pyPartition a ':').1 = "exists"
    · rw [hk] at h1
      exact absurd h1 (by decide)
    · by_cases h2 : (pyPartition a ':').1 = "flag"
      · rw [hk] at h2
        exact absurd h2 (by decide)
      · simp [atomStep, h1, h2, hk, hl]

/-- C7 witness: the error-free equivalence applied to the concrete
expression `flag:a&flag:b|flag:c` with flags `{a, b}`: the evaluator
returns exactly the disjunction-of-conjunctions value. -/
theorem eval_predicate_dnf_witness :
    eval_predicate "flag:a&flag:b|flag:c" ⟨some ["a", "b"], none, none⟩ =
      Except.ok (decide (("flag:a&flag:b|flag:c" : String) = "default") ||
        (pySplit "flag:a&flag:b|flag:c" '|').any
          (fun g => (pySplit g '&').all (atomPass ⟨some ["a", "b"], none, none⟩))) :=
  (eval_predicate_dnf "flag:a&flag:b|flag:c" ⟨some ["a", "b"], none, none⟩).1 (by decide)

/-- C7 counterexample: the unconditional claim fails on the code: in
`lines:t>3|flag:x` with facts `flags = {x}`, `lines = {t: 5}`, the second
or-group holds (so the claim says the result is true), but the evaluator
raises a type error while evaluating the first group's `lines` atom and
never returns. -/
theorem eval_predicate_dnf_cex :
    eval_predicate "lines:t>3|flag:x" ⟨some ["x"], some [], some [("t", 5)]⟩ =
      Except.error () ∧
    dnfHolds "lines:t>3|flag:x" ⟨some ["x"], some [], some [("t", 5)]⟩ = true :=
  ⟨rfl, rfl⟩

/-- C10: an atom whose kind is none of `exists`, `flag`, `lines` falls
through the evaluator's `match` and never falsifies its conjunction, so an
or-group consisting only of unrecognized atoms evaluates true for every
facts record, and an expression containing such a group never evaluates to
`False`. -/
theorem eval_unrecognized_atoms (pd : PredData) :
    (∀ a p, unrecognizedAtom a = true → atomStep pd a p = Except.ok p) ∧
    (∀ g, (∀ a ∈ pySplit g '&', unrecognizedAtom a = true) →
      evalGroupGo pd (pySplit g '&') true = Except.ok true) ∧
    (∀ pred g, g ∈ pySplit pred '|' →
      (∀ a ∈ pySplit g '&', unrecognizedAtom a = true) →
      eval_predicate pred pd ≠ Except.ok false) := by
  have part1 : ∀ a p, unrecognizedAtom a = true → atomStep pd a p = Except.ok p := by
    intro a p h
    unfold unrecognizedAtom at h
    split at h
    · exact absurd h (by simp)
    · next hcon =>
      push_neg at hcon
      obtain ⟨h1, h2, h3⟩ := hcon
      unfold atomKind at h1 h2 h3
      simp [atomStep, h1, h2, h3]
  have part2 : ∀ atoms, (∀ a ∈ atoms, unrecognizedAtom a = true) → ∀ p,
      evalGroupGo pd atoms p = Except.ok p := by
    intro atoms
    induction atoms with
    | nil => intro _ p; rfl
    | cons a rest ih =>
      intro h p
      simp only [evalGroupGo, part1 a p (h a (by simp))]
      exact ih (fun x hx => h x (by simp [hx])) p
  refine ⟨part1, fun g hg => part2 _ hg true, ?_⟩
  intro pred g hmem hunrec
  by_cases hd : pred = "default"
  · simp [eval_predicate, hd]
  · rw [eval_predicate, if_neg hd]
    exact evalOrGo_ne_false pd _ g hmem (part2 _ hunrec true)

/-- C10 witness: the group `default&misspelled` (both atoms unrecognized,
including the word `default` used inside a compound expression) evaluates
true, and the whole expression never evaluates false, on an empty facts
record. -/
theorem eval_unrecognized_atoms_witness :
    evalGroupGo ⟨none, none, none⟩ (pySplit "default&misspelled" '&') true =
      Except.ok true ∧
    eval_predicate "default&misspelled" ⟨none, none, none⟩ ≠ Except.ok false :=
  ⟨(eval_unrecognized_atoms ⟨none, none, none⟩).2.1 "default&misspelled" (by decide),
   (eval_unrecognized_atoms ⟨none, none, none⟩).2.2 "default&misspelled"
     "default&misspelled" (by decide) (by decide)⟩

/-! ## `find_nth` (textmaker.py lines 156–161) and pagination (385–397) -/

/-- The while loop of `find_nth`: `while start >= 0 and n > 1:
start = haystack.find(needle, start + 1); n -= 1` (the needle is the
one-character `"\n"`, so `start + len(needle)` is `start + 1`). -/
def findNthGo (w : List Char) (c : Char) : Int → Nat → Int
  | start, 0 => start
  | start, 1 => start
  | start, n + 2 =>
    if start < 0 then start
    else findNthGo w c (pyFind w c (start.toNat + 1)) (n + 1)

/-- `find_nth(haystack, needle, n)`: index of the `n`-th occurrence
(1-based), `-1` when there is none. -/
def find_nth (w : List Char) (c : Char) (n : Nat) : Int :=
  findNthGo w c (pyFind w c 0) n

/-- The pagination while loop of the repeat branch (lines 387–397): at
chunk count `k` it finds the `budget * (k+1)`-th newline as the chunk end,
and the source recomputes exactly the same `find_nth` (now with
`len(torepeat["text"]) = k+1`) for the next start, so `start = end + 1`.
The final `wrapped_text[start:]` append (line 396) is the terminating
branch.  `budget * (k+1)`-th newline indices strictly increase, so
`count + 1` iterations always suffice; the fuel-exhausted base returns the
same remainder chunk as the terminating branch. -/
def pagGo (w : List Char) (b : Nat) : Nat → Nat → Nat → List (List Char)
  | 0, _, start => [w.drop start]
  | fuel + 1, k, start =>
    let e := find_nth w '\n' (b * (k + 1))
    if e < 0 then [w.drop start]
    else ((w.take e.toNat).drop start) :: pagGo w b fuel (k + 1) (e.toNat + 1)

/-- The full pagination of a wrapped text into chunks of `b` lines. -/
def paginate (w : List Char) (b : Nat) : List (List Char) :=
  pagGo w b (w.count '\n' + 1) 0 0

/-- The claim-side join: chunks joined by the original line breaks. -/
def joinNl : List (List Char) → List Char
  | [] => []
  | [x] => x
  | x :: y :: r => x ++ '\n' :: joinNl (y :: r)

/-! ## The argument grammar and render orchestration
(textmaker.py lines 281–476)

The queue loop, flag prefix, syntax fold, textbox preload (wrap, truncate
or paginate, duplicate-repeater check) and the per-frame repeat loop are
embedded over the text-level state.  Image loading, compositing, file
output, and the per-frame re-merge of the configuration (lines 358 and
419) are elided: frames are recorded as the textbox-name → displayed-text
assignment, and the effective configuration's `fonts`/`textboxes` sections
(the shape spec §3 calls EffectiveConfig) are taken as already extracted,
with each font's resolved `textsize` measurer supplied externally.  Errors
raised by the source are `Except.error` values; a fuel-exhausted wrap
(the C2 divergence) surfaces as `PErr.noFuel`. -/

inductive PErr where
  | unknownStyle : String → PErr
  | unknownKeyValue : String → String → PErr
  | duplicateRepeat : String → String → PErr
  | keyErr : PErr
  | indexErr : PErr
  | noFuel : PErr
deriving DecidableEq, Repr

instance {e a : Type} [DecidableEq e] [DecidableEq a] : DecidableEq (Except e a) := fun x y =>
  match x, y with
  | Except.ok v, Except.ok w =>
    if h : v = w then isTrue (by rw [h]) else isFalse (fun hc => h (by injection hc))
  | Except.error v, Except.error w =>
    if h : v = w then isTrue (by rw [h]) else isFalse (fun hc => h (by injection hc))
  | Except.ok _, Except.error _ => isFalse (fun hc => by injection hc)
  | Except.error _, Except.ok _ => isFalse (fun hc => by injection hc)

/-- Generic Python dict lookup for string keys. -/
def lookupA {α : Type} : List (String × α) → String → Option α
  | [], _ => none
  | (k, v) :: r, key => if k = key then some v else lookupA r key

/-- One textbox's configuration (the fields of
`data["textboxes"][textbox]` the text pipeline reads). -/
structure TBoxCfg where
  font : String
  size : Nat × Nat
  text : String
  overflow : Option String

/-- A style's data as the orchestrator consumes it: the syntax string
(`style.json`'s `"syntax"`), the key-mapping table (`map.json`), and the
effective configuration's resolved fonts and textbox sections. -/
structure StyleDef where
  stx : String
  mappings : List (String × List (String × String))
  fonts : List (String × (List Char → Nat))
  textboxes : List (String × TBoxCfg)

/-- `parse_key` (lines 312–319): resolve a key argument through the
mapping table when the table defines the name; an unmapped name is used
literally; a mapped name with an unknown value is fatal. -/
def parse_key (mappings : List (String × List (String × String)))
    (keys : List (String × String)) (name val : String) :
    Except PErr (List (String × String)) :=
  match lookupA mappings name with
  | some table =>
    match lookupA table val with
    | some mapped => Except.ok (keys ++ [(name, mapped)])
    | none => Except.error (PErr.unknownKeyValue name val)
  | none => Except.ok (keys ++ [(name, val)])

/-- The flag prefix loop (lines 321–323): `while args[0].startswith("f:")`
— Python raises `IndexError` if the arguments run out. -/
def parseFlags : List String → Except PErr (List String × List String)
  | [] => Except.error PErr.indexErr
  | a :: rest =>
    if a.toList.take 2 = ['f', ':'] then
      match parseFlags rest with
      | Except.ok p => Except.ok (String.mk (a.toList.drop 2) :: p.1, p.2)
      | Except.error e => Except.error e
    else Except.ok ([], a :: rest)

/-- Python `args.index(x)` (first occurrence; callers check membership). -/
def pyIndex (x : String) : List String → Nat
  | [] => 0
  | a :: r => if a = x then 0 else pyIndex x r + 1

/-- The syntax fold (lines 325–347): walk the style's syntax tokens
against the remaining arguments, accumulating exists-facts, key bindings
and text fields; `rtext` consumes up to a `!REPEAT!` sentinel (whole
remainder if absent); a token of unrecognized kind falls through the
`match` and consumes nothing. -/
def parseStx (mappings : List (String × List (String × String))) :
    List String → List String → List String → List (String × String) →
    List (String × String) →
    Except PErr (List String × List (String × String) × List (String × String) × List String)
  | [], args, ex, keys, txt => Except.ok (ex, keys, txt, args)
  | tok :: toks, args, ex, keys, txt =>
    let tp := pyPartition tok ':'
    if tp.1 = "key" then
      match args with
      | [] => Except.error PErr.indexErr
      | a0 :: arest =>
        if a0 = "!NONE!" then parseStx mappings toks arest ex keys txt
        else
          match parse_key mappings keys tp.2 a0 with
          | Except.ok keys2 =>
            parseStx mappings toks arest (ex ++ ["key:" ++ tp.2]) keys2 txt
          | Except.error e => Except.error e
    else if tp.1 = "text" then
      match args with
      | [] => Except.error PErr.indexErr
      | a0 :: arest =>
        if a0 = "!NONE!" then parseStx mappings toks arest ex keys txt
        else parseStx mappings toks arest (ex ++ ["text:" ++ tp.2]) keys
          (txt ++ [(tp.2, a0)])
    else if tp.1 = "rtext" then
      if "!REPEAT!" ∈ args then
        parseStx mappings toks (args.drop (pyIndex "!REPEAT!" args + 1))
          (ex ++ ["text:" ++ tp.2]) keys
          (txt ++ [(tp.2, joinSpace (args.take (pyIndex "!REPEAT!" args)))])
      else
        parseStx mappings toks [] (ex ++ ["text:" ++ tp.2]) keys
          (txt ++ [(tp.2, joinSpace args)])
    else parseStx mappings toks args ex keys txt

/-- The result of parsing one argument group (lines 296–352). -/
structure GroupParse where
  style : String
  flags : List String
  existsv : List String
  keys : List (String × String)
  textFields : List (String × String)
  residual : List String

/-- Parse one queued group: style-name check against the registry
(lines 297–300), flag prefix, then the syntax fold. -/
def parseGroup (styles : List String) (styleOf : String → StyleDef)
    (g : List String) : Except PErr GroupParse :=
  match g with
  | [] => Except.error PErr.indexErr
  | style :: args =>
    if style ∈ styles then
      match parseFlags args with
      | Except.error e => Except.error e
      | Except.ok (flags, args2) =>
        match parseStx (styleOf style).mappings (pySplitWs (styleOf style).stx)
            args2 [] [] [] with
        | Except.error e => Except.error e
        | Except.ok (ex, keys, txt, residual) =>
          Except.ok ⟨style, flags, ex, keys, txt, residual⟩
    else Except.error (PErr.unknownStyle style)

/-- The textbox preload loop (lines 366–415): wrap each textbox's field,
record its line fact, truncate on plain overflow, paginate and move the
first chunk into the textbox on `"repeat"` overflow — raising on a second
repeating textbox.  Returns the textbox texts, the repeater (if any), its
remaining chunk queue, and the line facts. -/
def preloadLoop (fonts : List (String × (List Char → Nat)))
    (textFields : List (String × String)) :
    List (String × TBoxCfg) → Option String → List (List Char) →
    List (String × Nat) → List (String × List Char) →
    Except PErr (List (String × List Char) × Option String ×
      List (List Char) × List (String × Nat))
  | [], repeater, torepeat, linesAcc, tbAcc =>
    Except.ok (tbAcc, repeater, torepeat, linesAcc)
  | (name, cfg) :: rest, repeater, torepeat, linesAcc, tbAcc =>
    match lookupA fonts cfg.font with
    | none => Except.error PErr.keyErr
    | some mw =>
      match lookupA textFields cfg.text with
      | none => Except.error PErr.keyErr
      | some txt =>
        match wraptext mw cfg.size.1 false (txt.toList.length + 1) txt.toList with
        | none => Except.error PErr.noFuel
        | some (wrapped, nlines) =>
          if cfg.size.2 < nlines then
            if cfg.overflow = some "repeat" then
              match repeater with
              | some rname => Except.error (PErr.duplicateRepeat rname name)
              | none =>
                match paginate wrapped cfg.size.2 with
                | [] => Except.error PErr.indexErr
                | c0 :: cq =>
                  preloadLoop fonts textFields rest (some name) cq
                    (linesAcc ++ [(name, cfg.size.2)]) (tbAcc ++ [(name, c0)])
            else
              preloadLoop fonts textFields rest repeater torepeat
                (linesAcc ++ [(name, cfg.size.2)])
                (tbAcc ++ [(name, wrapped.take
                  (pySliceEnd wrapped.length (find_nth wrapped '\n' cfg.size.2)))])
          else
            preloadLoop fonts textFields rest repeater torepeat
              (linesAcc ++ [(name, nlines)]) (tbAcc ++ [(name, wrapped)])

/-- One output frame, reduced to the textbox-name → displayed-text map. -/
abbrev Frame := List (String × List Char)

/-- Substituting the next repeat chunk into the repeating textbox
(lines 467–468). -/
def updateTb (tb : List (String × List Char)) (r : String) (c : List Char) :
    List (String × List Char) :=
  tb.map (fun p => if p.1 = r then (p.1, c) else p)

/-- The per-frame repeat loop (lines 417–475, rendering elided): emit a
frame, then while a repeater with pending chunks remains, substitute the
next chunk and emit again; the repeater is cleared when its queue
empties, after which one final frame is emitted and the loop breaks. -/
def renderLoop : Option String → List (List Char) → List (String × List Char) →
    List Frame
  | none, _, tb => [tb]
  | some _, [], _ => []
  | some r, chunk :: q, tb =>
    tb :: renderLoop (if q = [] then none else some r) q (updateTb tb r chunk)

/-- Process one argument group end to end (parse, preload, render); the
residual arguments, if any, are requeued as `style :: residual`. -/
def processGroup (styles : List String) (styleOf : String → StyleDef)
    (g : List String) : Except PErr (List Frame × List (List String)) :=
  match parseGroup styles styleOf g with
  | Except.error e => Except.error e
  | Except.ok gp =>
    match preloadLoop (styleOf gp.style).fonts gp.textFields
        (styleOf gp.style).textboxes none [] [] [] with
    | Except.error e => Except.error e
    | Except.ok (tbAcc, repeater, torepeat, _) =>
      Except.ok (renderLoop repeater torepeat tbAcc,
        if gp.residual = [] then [] else [gp.style :: gp.residual])

/-- The outer `while len(parse_queue) > 0` loop (line 293): process the
head group, append its requeued group (if any) at the back, and
accumulate frames; a raised error aborts the whole run, leaving only the
frames of fully completed earlier groups. -/
def runQueue (styles : List String) (styleOf : String → StyleDef) :
    Nat → List (List String) → List Frame → List Frame × Option PErr
  | 0, _, acc => (acc, some PErr.noFuel)
  | _ + 1, [], acc => (acc, none)
  | fuel + 1, g :: rest, acc =>
    match processGroup styles styleOf g with
    | Except.error e => (acc, some e)
    | Except.ok (frames, requeue) =>
      runQueue styles styleOf fuel (rest ++ requeue) (acc ++ frames)

/-! ## Pagination completeness (C3) -/

/-- A `some` result of `pyFindAux` splits the list at a first occurrence. -/
theorem pyFindAux_spec (c : Char) :
    ∀ l j, pyFindAux c l = some j →
      ∃ pre post, l = pre ++ c :: post ∧ pre.length = j ∧ pre.count c = 0 := by
  intro l
  induction l with
  | nil => intro j h; simp [pyFindAux] at h
  | cons x xs ih =>
    intro j h
    by_cases hx : x = c
    · refine ⟨[], xs, by simp [hx], ?_, by simp⟩
      simp only [pyFindAux, if_pos hx] at h
      have h0 : (0 : Nat) = j := Option.some.inj h
      simpa using h0
    · simp only [pyFindAux, if_neg hx, Option.map_eq_some'] at h
      obtain ⟨j', hj', rfl⟩ := h
      obtain ⟨pre, post, hl, hlen, hcnt⟩ := ih j' hj'
      refine ⟨x :: pre, post, by simp [hl], by simp [hlen], ?_⟩
      simp [List.count_cons, hcnt, Ne.symm hx]

theorem pyFind_spec (l : List Char) (c : Char) (s : Nat) (h : 0 ≤ pyFind l c s) :
    ∃ pre post, l = pre ++ c :: post ∧ (pre.length : Int) = pyFind l c s ∧
      s ≤ pre.length ∧ pre.count c = (l.take s).count c := by
  cases hf : pyFindAux c (l.drop s) with
  | none =>
    have hv : pyFind l c s = -1 := by unfold pyFind; rw [hf]
    omega
  | some j =>
    have hv : pyFind l c s = ((j + s : Nat) : Int) := by unfold pyFind; rw [hf]
    rw [hv]
    obtain ⟨pre', post, hd, hlen, hcnt⟩ := pyFindAux_spec c (l.drop s) j hf
    have hs : s < l.length := by
      have hlen2 := congrArg List.length hd
      simp [List.length_drop] at hlen2
      omega
    refine ⟨l.take s ++ pre', post, ?_, ?_, ?_, ?_⟩
    · conv_lhs => rw [← List.take_append_drop s l]
      rw [hd, List.append_assoc]
    · simp only [List.length_append, List.length_take]
      push_cast
      omega
    · simp only [List.length_append, List.length_take]
      omega
    · simp [List.count_append, hcnt]

theorem findNthGo_spec (w : List Char) (c : Char) :
    ∀ n (start : Int) m,
      (0 ≤ start → ∃ pre post, w = pre ++ c :: post ∧ (pre.length : Int) = start ∧
        pre.count c = m) →
      1 ≤ n → 0 ≤ findNthGo w c start n →
      ∃ pre post, w = pre ++ c :: post ∧
        (pre.length : Int) = findNthGo w c start n ∧ pre.count c + 1 = m + n := by
  intro n
  induction n using Nat.strong_induction_on with
  | _ n ih =>
    match n with
    | 0 => intro start m _ h1 _; omega
    | 1 =>
      intro start m h _ hres
      have e1 : findNthGo w c start 1 = start := rfl
      rw [e1] at hres ⊢
      obtain ⟨pre, post, hw, hlen, hcnt⟩ := h hres
      exact ⟨pre, post, hw, hlen, by omega⟩
    | n + 2 =>
      intro start m h _ hres
      have hstep : findNthGo w c start (n + 2) =
          if start < 0 then start
          else findNthGo w c (pyFind w c (start.toNat + 1)) (n + 1) := rfl
      by_cases hneg : start < 0
      · rw [hstep, if_pos hneg] at hres
        omega
      · push_neg at hneg
        rw [hstep, if_neg (not_lt.mpr hneg)] at hres ⊢
        obtain ⟨pre, post, hw, hlen, hcnt⟩ := h hneg
        have hrec := ih (n + 1) (by omega) (pyFind w c (start.toNat + 1)) (m + 1)
          ?_ (by omega) hres
        · obtain ⟨p2, q2, h2, hl2, hc2⟩ := hrec
          exact ⟨p2, q2, h2, hl2, by omega⟩
        · intro hp
          obtain ⟨p2, q2, h2, hl2, hs2, hc2⟩ := pyFind_spec w c (start.toNat + 1) hp
          refine ⟨p2, q2, h2, hl2, ?_⟩
          have hsn : start.toNat = pre.length := by omega
          have htake : w.take (start.toNat + 1) = pre ++ [c] := by
            rw [hsn, hw, List.take_append]
            simp
          rw [htake, List.count_append] at hc2
          simp [List.count_cons] at hc2
          omega

theorem find_nth_spec (w : List Char) (c : Char) (n : Nat) (h1 : 1 ≤ n)
    (h : 0 ≤ find_nth w c n) :
    ∃ pre post, w = pre ++ c :: post ∧ (pre.length : Int) = find_nth w c n ∧
      pre.count c + 1 = n := by
  unfold find_nth at h ⊢
  have hmain := findNthGo_spec w c n (pyFind w c 0) 0 ?_ h1 h
  · obtain ⟨pre, post, hw, hl, hc⟩ := hmain
    exact ⟨pre, post, hw, hl, by omega⟩
  · intro hp
    obtain ⟨pre, post, hw, hl, _, hc⟩ := pyFind_spec w c 0 hp
    exact ⟨pre, post, hw, hl, by simpa using hc⟩

theorem joinNl_cons (x : List Char) (l : List (List Char)) (h : l ≠ []) :
    joinNl (x :: l) = x ++ '\n' :: joinNl l := by
  cases l with
  | nil => exact absurd rfl h
  | cons y r => rfl

theorem pagGo_ne_nil (w : List Char) (b : Nat) :
    ∀ fuel k start, pagGo w b fuel k start ≠ [] := by
  intro fuel k start
  cases fuel with
  | zero => simp [pagGo]
  | succ fuel =>
    simp only [pagGo]
    split <;> simp

theorem pagGo_join (w : List Char) (b : Nat) (hb : 1 ≤ b) :
    ∀ fuel k start,
      (start = 0 ∨ ∃ pre post, w = pre ++ '\n' :: post ∧ pre.length + 1 = start ∧
        pre.count '\n' + 1 = b * k) →
      joinNl (pagGo w b fuel k start) = w.drop start := by
  intro fuel
  induction fuel with
  | zero => intro k start _; rfl
  | succ fuel ih =>
    intro k start hinv
    simp only [pagGo]
    by_cases he : find_nth w '\n' (b * (k + 1)) < 0
    · rw [if_pos he]
      rfl
    · rw [if_neg he]
      push_neg at he
      obtain ⟨pre, post, hw, hlen, hcnt⟩ := find_nth_spec w '\n' (b * (k + 1))
        (Nat.mul_pos (by omega) (by omega)) he
      set e := find_nth w '\n' (b * (k + 1)) with hedef
      have hetn : e.toNat = pre.length := by omega
      have hstart : start ≤ pre.length := by
        rcases hinv with h0 | ⟨pre0, post0, hw0, hlen0, hcnt0⟩
        · omega
        · by_contra hlt
          push_neg at hlt
          have hp : w.take pre.length = pre := by rw [hw, List.take_left]
          have hp0 : w.take pre0.length = pre0 := by rw [hw0, List.take_left]
          have hcle : (w.take pre.length).count '\n' ≤ (w.take pre0.length).count '\n' := by
            have hsub : List.Sublist (w.take pre.length) (w.take pre0.length) := by
              have heq : w.take pre.length = (w.take pre0.length).take pre.length := by
                rw [List.take_take, Nat.min_eq_left (by omega)]
              rw [heq]
              exact List.take_sublist _ _
            exact hsub.count_le _
          rw [hp, hp0] at hcle
          have hbk : b * (k + 1) = b * k + b := by ring
          omega
      have hdrop : w.drop start = (w.take e.toNat).drop start ++ '\n' :: w.drop (e.toNat + 1) := by
        have htk : w.take e.toNat = pre := by rw [hetn, hw, List.take_left]
        have hdr : w.drop (e.toNat + 1) = post := by
          have hsplit : pre ++ '\n' :: post = (pre ++ ['\n']) ++ post := by simp
          have hlen1 : e.toNat + 1 = (pre ++ ['\n']).length := by simp [hetn]
          rw [hw, hsplit, hlen1, List.drop_left]
        rw [htk, hdr, hw, List.drop_append_of_le_length hstart]
      have hinv2 : e.toNat + 1 = 0 ∨ ∃ pre2 post2, w = pre2 ++ '\n' :: post2 ∧
          pre2.length + 1 = e.toNat + 1 ∧ pre2.count '\n' + 1 = b * (k + 1) :=
        Or.inr ⟨pre, post, hw, by omega, hcnt⟩
      rw [joinNl_cons _ _ (pagGo_ne_nil w b fuel (k + 1) (e.toNat + 1)),
        ih (k + 1) (e.toNat + 1) hinv2]
      exact hdrop.symm

/-- The repeat-pagination scenario style: syntax `rtext:body`, one textbox
bound to width 2 and 2 lines with overflow policy `"repeat"`. -/
def demoStyle : StyleDef :=
  ⟨"rtext:body", [], [("f", mwLen)], [("box", ⟨"f", (2, 2), "body", some "repeat"⟩)]⟩

/-- **C3.** Pagination completeness: concatenating all paginated chunks,
joined by the original line breaks, reproduces the full wrapped text with no
gaps or duplicated lines, for every wrapped text and every (positive)
per-frame line budget; and in the concrete scenario — a textbox bound to
2 lines with overflow policy `"repeat"` and a 5-line wrapped text — the
preload paginates into chunks of 2, 2 and 1 lines with the first chunk
loaded into the textbox, and the full run emits exactly those 3 frames in
that order, after which the queue is empty and the group finishes with no
error. -/
theorem pagination_complete :
    (∀ (w : List Char) (b : Nat), 1 ≤ b → joinNl (paginate w b) = w) ∧
    preloadLoop [("f", mwLen)] [("body", "a b c d e")]
        [("box", ⟨"f", (2, 2), "body", some "repeat"⟩)] none [] [] [] =
      Except.ok ([("box", ['a', '\n', 'b'])], some "box",
        [['c', '\n', 'd'], ['e']], [("box", 2)]) ∧
    runQueue ["demo"] (fun _ => demoStyle) 2 [["demo", "a", "b", "c", "d", "e"]] [] =
      ([[("box", ['a', '\n', 'b'])], [("box", ['c', '\n', 'd'])], [("box", ['e'])]],
        none) ∧
    (splitNl ['a', '\n', 'b']).length = 2 ∧ (splitNl ['c', '\n', 'd']).length = 2 ∧
    (splitNl ['e']).length = 1 := by
  refine ⟨?_, by decide, by decide, by decide, by decide, by decide⟩
  intro w b hb
  have hmain := pagGo_join w b hb (w.count '\n' + 1) 0 0 (Or.inl rfl)
  simpa [paginate] using hmain

theorem pagination_complete_witness :
    joinNl (paginate ['x', '\n', 'y'] 1) = ['x', '\n', 'y'] :=
  pagination_complete.1 ['x', '\n', 'y'] 1 (by decide)

/-! ## `rtext` and the `!REPEAT!` sentinel (C6) -/

/-- Partitioning an `rtext:<name>` token at the first colon. -/
theorem pyPartition_rtext (name : String) :
    pyPartition ("rtext:" ++ name) ':' = ("rtext", name) := by
  unfold pyPartition
  have hdata : ("rtext:" ++ name).toList =
      'r' :: 't' :: 'e' :: 'x' :: 't' :: ':' :: name.data := by
    show ("rtext:" ++ name).data = _
    simp [String.data_append]
  rw [hdata]
  simp [pyPartitionCh]

/-- Python `args.index` at the first occurrence of an absent-before element. -/
theorem pyIndex_append (x : String) (pre post : List String) (h : x ∉ pre) :
    pyIndex x (pre ++ x :: post) = pre.length := by
  induction pre with
  | nil => simp [pyIndex]
  | cons a r ih =>
    have h1 : ¬ a = x := fun heq => h (by simp [heq])
    have h2 : x ∉ r := fun hm => h (by simp [hm])
    simp only [List.cons_append, List.append_eq, pyIndex, if_neg h1, ih h2,
      List.length_cons]

/-- One step of the syntax fold at an `rtext:<name>` token (lines 338–347). -/
theorem parseStx_rtext_step (m : List (String × List (String × String)))
    (name : String) (toks args ex : List String)
    (keys txt : List (String × String)) :
    parseStx m (("rtext:" ++ name) :: toks) args ex keys txt =
      if "!REPEAT!" ∈ args then
        parseStx m toks (args.drop (pyIndex "!REPEAT!" args + 1))
          (ex ++ ["text:" ++ name]) keys
          (txt ++ [(name, joinSpace (args.take (pyIndex "!REPEAT!" args)))])
      else
        parseStx m toks [] (ex ++ ["text:" ++ name]) keys
          (txt ++ [(name, joinSpace args)]) := by
  simp only [parseStx, pyPartition_rtext]
  rw [if_neg (by decide : ¬ ("rtext" : String) = "key"),
    if_neg (by decide : ¬ ("rtext" : String) = "text")]
  simp

/-- Dropping everything through the sentinel. -/
theorem drop_append_sentinel (pre post : List String) :
    (pre ++ "!REPEAT!" :: post).drop (pre.length + 1) = post := by
  rw [show pre ++ "!REPEAT!" :: post = (pre ++ ["!REPEAT!"]) ++ post by simp]
  rw [show pre.length + 1 = (pre ++ ["!REPEAT!"]).length by simp]
  exact List.drop_left _ _

/-- The argument-repetition scenario style: syntax `rtext:body`, one
textbox wide and tall enough that its text never overflows. -/
def demoStyle2 : StyleDef :=
  ⟨"rtext:body", [], [("f", mwLen)], [("box", ⟨"f", (10, 5), "body", none⟩)]⟩

/-- **C6.** An `rtext:<name>` token consumes the remaining arguments up to
a literal `!REPEAT!` sentinel when one is present — the joined pre-sentinel
arguments become the text field's value and the post-sentinel arguments are
left as the residual — and consumes everything with empty residual when no
sentinel is present; at the end of the syntax the residual is returned
verbatim, a completed group requeues `style :: residual` as a new group for
the same style exactly when the residual is nonempty, and the requeued
group goes to the back of the queue, processed only after the current
group's frames are emitted (FIFO); concretely, `rtext:body` on arguments
`x y !REPEAT! z` renders the `x y` frame first and the requeued `z` frame
second. -/
theorem rtext_repeat_requeue :
    (∀ (m : List (String × List (String × String))) (name : String)
        (toks pre post ex : List String) (keys txt : List (String × String)),
      "!REPEAT!" ∉ pre →
      parseStx m (("rtext:" ++ name) :: toks) (pre ++ "!REPEAT!" :: post) ex keys txt =
        parseStx m toks post (ex ++ ["text:" ++ name]) keys
          (txt ++ [(name, joinSpace pre)])) ∧
    (∀ (m : List (String × List (String × String))) (name : String)
        (toks args ex : List String) (keys txt : List (String × String)),
      "!REPEAT!" ∉ args →
      parseStx m (("rtext:" ++ name) :: toks) args ex keys txt =
        parseStx m toks [] (ex ++ ["text:" ++ name]) keys
          (txt ++ [(name, joinSpace args)])) ∧
    (∀ (m : List (String × List (String × String))) (name : String)
        (pre post ex : List String) (keys txt : List (String × String)),
      "!REPEAT!" ∉ pre →
      parseStx m ["rtext:" ++ name] (pre ++ "!REPEAT!" :: post) ex keys txt =
        Except.ok (ex ++ ["text:" ++ name], keys,
          txt ++ [(name, joinSpace pre)], post)) ∧
    (∀ (styles : List String) (styleOf : String → StyleDef) (g : List String)
        (gp : GroupParse) (tb : List (String × List Char)) (rep : Option String)
        (tr : List (List Char)) (la : List (String × Nat)),
      parseGroup styles styleOf g = Except.ok gp →
      preloadLoop (styleOf gp.style).fonts gp.textFields
          (styleOf gp.style).textboxes none [] [] [] =
        Except.ok (tb, rep, tr, la) →
      processGroup styles styleOf g = Except.ok (renderLoop rep tr tb,
        if gp.residual = [] then [] else [gp.style :: gp.residual])) ∧
    (∀ (styles : List String) (styleOf : String → StyleDef) (fuel : Nat)
        (g : List String) (rest : List (List String)) (acc frames : List Frame)
        (requeue : List (List String)),
      processGroup styles styleOf g = Except.ok (frames, requeue) →
      runQueue styles styleOf (fuel + 1) (g :: rest) acc =
        runQueue styles styleOf fuel (rest ++ requeue) (acc ++ frames)) ∧
    runQueue ["d2"] (fun _ => demoStyle2) 3 [["d2", "x", "y", "!REPEAT!", "z"]] [] =
      ([[("box", ['x', ' ', 'y'])], [("box", ['z'])]], none) := by
  have hmem : ∀ (pre post : List String), "!REPEAT!" ∈ pre ++ "!REPEAT!" :: post := by
    intro pre post
    simp
  have h1 : ∀ (m : List (String × List (String × String))) (name : String)
      (toks pre post ex : List String) (keys txt : List (String × String)),
      "!REPEAT!" ∉ pre →
      parseStx m (("rtext:" ++ name) :: toks) (pre ++ "!REPEAT!" :: post) ex keys txt =
        parseStx m toks post (ex ++ ["text:" ++ name]) keys
          (txt ++ [(name, joinSpace pre)]) := by
    intro m name toks pre post ex keys txt hpre
    rw [parseStx_rtext_step, if_pos (hmem pre post), pyIndex_append _ _ _ hpre,
      List.take_left, drop_append_sentinel]
  refine ⟨h1, ?_, ?_, ?_, ?_, by decide⟩
  · intro m name toks args ex keys txt hrep
    rw [parseStx_rtext_step, if_neg hrep]
  · intro m name pre post ex keys txt hpre
    rw [h1 m name [] pre post ex keys txt hpre]
    rfl
  · intro styles styleOf g gp tb rep tr la hparse hpre
    simp only [processGroup, hparse, hpre]
  · intro styles styleOf fuel g rest acc frames requeue hproc
    simp only [runQueue, hproc]

theorem rtext_repeat_requeue_witness :
    parseStx [] ["rtext:" ++ "body"] (["x"] ++ "!REPEAT!" :: ["z"]) [] [] [] =
      parseStx [] [] ["z"] ([] ++ ["text:" ++ "body"]) []
        ([] ++ [("body", joinSpace ["x"])]) :=
  rtext_repeat_requeue.1 [] "body" [] ["x"] ["z"] [] [] [] (by decide)

/-! ## Fatal configuration errors (C8) -/

/-- A duplicate-repeat scenario style: two textboxes, both 2 lines tall
with overflow policy `"repeat"`, fed the same overflowing text field. -/
def demoStyle3 : StyleDef :=
  ⟨"rtext:body", [], [("f", mwLen)],
    [("box", ⟨"f", (2, 2), "body", some "repeat"⟩),
     ("box2", ⟨"f", (2, 2), "body", some "repeat"⟩)]⟩

/-- **C8.** Each of the three configuration faults raises a fatal error:
an unknown style name (line 299–300), a key argument whose symbolic value
is absent from its defined mapping table (lines 316–317), and a second
textbox overflowing with the `"repeat"` policy in one group (lines
382–384); and a raised error aborts the invocation — the queue loop stops
and returns only the frames of previously completed groups, committing no
frame for the offending group — shown generally and on two concrete runs. -/
theorem fatal_config_errors :
    (∀ (styles : List String) (styleOf : String → StyleDef) (style : String)
        (args : List String), style ∉ styles →
      parseGroup styles styleOf (style :: args) =
        Except.error (PErr.unknownStyle style)) ∧
    (∀ (m : List (String × List (String × String)))
        (keys : List (String × String)) (name val : String)
        (table : List (String × String)),
      lookupA m name = some table → lookupA table val = none →
      parse_key m keys name val = Except.error (PErr.unknownKeyValue name val)) ∧
    (∀ (fonts : List (String × (List Char → Nat)))
        (tf : List (String × String)) (name : String) (cfg : TBoxCfg)
        (rest : List (String × TBoxCfg)) (rname : String)
        (torepeat : List (List Char)) (la : List (String × Nat))
        (tb : List (String × List Char)) (mw : List Char → Nat) (txt : String)
        (w : List Char) (n : Nat),
      lookupA fonts cfg.font = some mw →
      lookupA tf cfg.text = some txt →
      wraptext mw cfg.size.1 false (txt.toList.length + 1) txt.toList = some (w, n) →
      cfg.size.2 < n → cfg.overflow = some "repeat" →
      preloadLoop fonts tf ((name, cfg) :: rest) (some rname) torepeat la tb =
        Except.error (PErr.duplicateRepeat rname name)) ∧
    (∀ (styles : List String) (styleOf : String → StyleDef) (fuel : Nat)
        (g : List String) (rest : List (List String)) (acc : List Frame)
        (e : PErr),
      processGroup styles styleOf g = Except.error e →
      runQueue styles styleOf (fuel + 1) (g :: rest) acc = (acc, some e)) ∧
    runQueue ["d3"] (fun _ => demoStyle3) 2 [["d3", "a", "b", "c", "d", "e"]] [] =
      ([], some (PErr.duplicateRepeat "box" "box2")) ∧
    runQueue ["d3"] (fun _ => demoStyle3) 2 [["nope", "x"]] [] =
      ([], some (PErr.unknownStyle "nope")) := by
  refine ⟨?_, ?_, ?_, ?_, by decide, by decide⟩
  · intro styles styleOf style args h
    simp only [parseGroup]
    rw [if_neg h]
  · intro m keys name val table hm ht
    simp only [parse_key, hm, ht]
  · intro fonts tf name cfg rest rname torepeat la tb mw txt w n hfont htxt hwrap hlt hov
    simp only [preloadLoop, hfont, htxt, hwrap]
    rw [if_pos hlt, if_pos hov]
  · intro styles styleOf fuel g rest acc e hproc
    simp only [runQueue, hproc]

theorem fatal_config_errors_witness :
    parseGroup ["d3"] (fun _ => demoStyle3) ["nope", "x"] =
      Except.error (PErr.unknownStyle "nope") :=
  fatal_config_errors.1 ["d3"] (fun _ => demoStyle3) "nope" ["x"] (by decide)

/-! ## Nine-slice expansion (`create_expand`, textmaker.py lines 183–240, C9)

An image is embedded as its size and a pixel function (colour values as
opaque `Nat`s).  `Image.new` fills with the transparent colour `0`.
`Image.resize(size, Image.NEAREST, box)` samples, for destination pixel
`(i, j)`, the source pixel containing the centre-mapped point
`(x1 + (i + 1/2)·(x2 - x1)/w′, y1 + (j + 1/2)·(y2 - y1)/h′)` — in integer
arithmetic the floors `x1 + (2i+1)(x2-x1)/(2w′)` and
`y1 + (2j+1)(y2-y1)/(2h′)` — and `output.paste(img, loc)` overwrites the
rectangle of `img`'s size at `loc`, leaving other pixels unchanged. -/

structure Img where
  w : Nat
  h : Nat
  pix : Nat → Nat → Nat

def Img.new (w h : Nat) : Img := ⟨w, h, fun _ _ => 0⟩

def resizeNearest (src : Img) (sz : Nat × Nat) (box : Nat × Nat × Nat × Nat) : Img :=
  ⟨sz.1, sz.2, fun i j =>
    src.pix (box.1 + (2 * i + 1) * (box.2.2.1 - box.1) / (2 * sz.1))
      (box.2.1 + (2 * j + 1) * (box.2.2.2 - box.2.1) / (2 * sz.2))⟩

def paste (dst : Img) (src : Img) (loc : Nat × Nat) : Img :=
  ⟨dst.w, dst.h, fun x y =>
    if loc.1 ≤ x ∧ x < loc.1 + src.w ∧ loc.2 ≤ y ∧ y < loc.2 + src.h then
      src.pix (x - loc.1) (y - loc.2)
    else dst.pix x y⟩

/-- Pixel-identical images: same size, same colour at every coordinate. -/
def imgEq (a b : Img) : Prop :=
  a.w = b.w ∧ a.h = b.h ∧ ∀ x y, x < a.w → y < a.h → a.pix x y = b.pix x y

/-- `create_expand` (lines 183–240): slice the base image into a 3×3 grid
at the divide lines, resize each section to its target size, and paste the
nine sections onto a fresh target-sized canvas at their target locations,
iterating in the dictionaries' insertion order. -/
def create_expand (base : Img) (tsize : Nat × Nat)
    (divide : Nat × Nat × Nat × Nat) : Img :=
  let w := tsize.1
  let h := tsize.2
  let dx1 := divide.1
  let dx2 := divide.2.1
  let dy1 := divide.2.2.1
  let dy2 := divide.2.2.2
  let mx := base.w
  let my := base.h
  let rsw := mx - dx2
  let bsh := my - dy2
  let dtx := w - rsw
  let dty := h - bsh
  let xs := dtx - dx1
  let ys := dty - dy1
  let section_bounds : List (String × (Nat × Nat × Nat × Nat)) :=
    [("tl", (0, 0, dx1, dy1)), ("tm", (dx1, 0, dx2, dy1)),
     ("tr", (dx2, 0, mx, dy1)), ("ml", (0, dy1, dx1, dy2)),
     ("mm", (dx1, dy1, dx2, dy2)), ("mr", (dx2, dy1, mx, dy2)),
     ("bl", (0, dy2, dx1, my)), ("bm", (dx1, dy2, dx2, my)),
     ("br", (dx2, dy2, mx, my))]
  let section_locations : List (String × (Nat × Nat)) :=
    [("tl", (0, 0)), ("tm", (dx1, 0)), ("tr", (dtx, 0)),
     ("ml", (0, dy1)), ("mm", (dx1, dy1)), ("mr", (dtx, dy1)),
     ("bl", (0, dty)), ("bm", (dx1, dty)), ("br", (dtx, dty))]
  let section_sizes : List (String × (Nat × Nat)) :=
    [("tl", (dx1, dy1)), ("tm", (xs, dy1)), ("tr", (rsw, dy1)),
     ("ml", (dx1, ys)), ("mm", (xs, ys)), ("mr", (rsw, ys)),
     ("bl", (dx1, bsh)), ("bm", (xs, bsh)), ("br", (rsw, bsh))]
  let output := Img.new w h
  section_locations.foldl (fun out sec =>
    paste out
      (resizeNearest base ((lookupA section_sizes sec.1).getD (0, 0))
        ((lookupA section_bounds sec.1).getD (0, 0, 0, 0)))
      sec.2) output

theorem div_center_id (i d : Nat) (hd : 0 < d) : (2 * i + 1) * d / (2 * d) = i := by
  have h1 : (2 * i + 1) * d = d + 2 * d * i := by ring
  rw [h1, Nat.add_mul_div_left _ _ (by omega : 0 < 2 * d),
    Nat.div_eq_of_lt (by omega)]
  omega

set_option maxHeartbeats 1600000 in
/-- **C9.** Nine-slice preserves fixed regions: for a target size equal to
the base image's own size and divide lines partitioning it into a 3×3
grid, `create_expand` returns an image pixel-identical to the base image
(every one of the nine sections is resized to its own source size with
zero stretch and pasted back exactly onto its source rectangle). -/
theorem expand_identity (base : Img) (dx1 dx2 dy1 dy2 : Nat)
    (hx1 : dx1 ≤ dx2) (hx2 : dx2 ≤ base.w) (hy1 : dy1 ≤ dy2) (hy2 : dy2 ≤ base.h) :
    imgEq (create_expand base (base.w, base.h) (dx1, dx2, dy1, dy2)) base := by
  obtain ⟨mx, my, p⟩ := base
  have hx2m : dx2 ≤ mx := hx2
  have hy2m : dy2 ≤ my := hy2
  refine ⟨rfl, rfl, ?_⟩
  intro x y hx hy
  have hxm : x < mx := hx
  have hym : y < my := hy
  clear hx hy hx2 hy2
  simp only [create_expand, List.foldl_cons, List.foldl_nil, lookupA,
    String.reduceEq, reduceIte, Option.getD, paste, resizeNearest, Img.new]
  have e1 : mx - (mx - dx2) = dx2 := by omega
  have e2 : my - (my - dy2) = dy2 := by omega
  rw [e1, e2]
  simp only [Nat.sub_zero, Nat.zero_add, Nat.add_zero, Nat.zero_le, true_and]
  have hgen : ∀ a b, a = x → b = y → p a b = p x y := by
    intro a b ha hb
    rw [ha, hb]
  split_ifs with h1 h2 h3 h4 h5 h6 h7 h8 h9 <;>
    first
      | omega
      | exact hgen _ _ (by rw [div_center_id _ _ (by omega)]; try omega)
          (by rw [div_center_id _ _ (by omega)]; try omega)

theorem expand_identity_witness :
    imgEq (create_expand ⟨2, 2, fun x y => x + 2 * y⟩ (2, 2) (1, 1, 1, 1))
      ⟨2, 2, fun x y => x + 2 * y⟩ :=
  expand_identity ⟨2, 2, fun x y => x + 2 * y⟩ 1 1 1 1 (by decide) (by decide)
    (by decide) (by decide)
